import Mathlib

/-!
A shallow embedding of the `sto` string-interning crate
(`src/constants.rs`, `src/entry.rs`, `src/arena.rs`, `src/repository.rs`,
`src/lib.rs`), together with proofs about the embedded operations.

Modelling conventions:
* `usize`/`u64` arithmetic is `Nat` with explicit `% 2^64` / checked-overflow
  tests exactly where the source performs a checked operation; unchecked
  additions that cannot overflow before the allocator itself would have
  failed are plain `Nat` additions.
* Raw memory is modelled by addresses (`Nat`).  A `Record` written by the
  arena is kept as the triple (address of its length field, stored hash,
  stored string); `Entry::as_str`/`Entry::hash`, which in the source read
  the record bytes back from the pointer, are the `str`/`hash` fields of
  that triple.  Derived pointer equality of `Entry(NonNull<u8>)` is address
  equality.
* The global allocator is an explicit oracle state `AllocSt`: it hands out
  fresh 8-aligned disjoint addresses and may be told to fail at a given
  request (modelling `alloc` returning null, i.e. the "oom" panics).
  A Rust panic is modelled by an `Except.error` result returned together
  with whatever state mutations happened before the panic.
* The unbounded probe loops of `Entries::get_or_insert` / `Entries::grow`
  are given `capacity` fuel; exhausting it yields the `.diverge` outcome,
  proved unreachable from well-formed states (claim C10).
* The external fixed-seed `ahash` hasher is out of scope of the sources and
  is modelled, following the spec, as an arbitrary function `String → Nat`
  truncated to 64 bits.
-/

/-- Width of `usize` on the reference 64-bit target: values live below `2 ^ 64`. -/
def USIZE : Nat := 2 ^ 64

/-- Model of `ALLOC_ALIGNMENT = size_of::<usize>()` (constants.rs). -/
def ALLOC_ALIGNMENT : Nat := 8

/-- Model of `CHUNK_DEFAULT_CAPACITY = 1 << 13` (constants.rs): 8 KiB. -/
def CHUNK_DEFAULT_CAPACITY : Nat := 1 <<< 13

/-- Model of `CHUNK_USABLE_THRESHOLD = 1 << 7` (constants.rs): 128 B. -/
def CHUNK_USABLE_THRESHOLD : Nat := 1 <<< 7

/-- Model of `BUCKET_MASK_BITS = 6` (constants.rs). -/
def BUCKET_MASK_BITS : Nat := 6

/-- Model of `BUCKET_NUMBER = 1 << BUCKET_MASK_BITS` (constants.rs). -/
def BUCKET_NUMBER : Nat := 1 <<< BUCKET_MASK_BITS

/-- Model of `BUCKET_RSHIFT = usize::BITS - BUCKET_MASK_BITS` (constants.rs). -/
def BUCKET_RSHIFT : Nat := 64 - BUCKET_MASK_BITS

/-- Model of `ENTRIES_INITIAL_CAPACITY = 1 << 10` (constants.rs). -/
def ENTRIES_INITIAL_CAPACITY : Nat := 1 <<< 10

/-- Byte size of `size_of::<Chunk>()`: four pointer-sized fields (arena.rs). -/
def SIZE_OF_CHUNK : Nat := 32

/-- Byte size of `size_of::<Option<Entry>>()`: niche-optimized to one pointer (entry.rs). -/
def SIZE_OF_OPTION_ENTRY : Nat := 8

/-- Address of the statically allocated `DUMMY_CHUNK` (arena.rs); its `cur`
and `low` fields both point at the static itself.  The concrete value is an
arbitrary well-aligned static address of the 64-bit process image. -/
def DUMMY_CHUNK_ADDR : Nat := 2 ^ 48

/-- Model of `round_up` (arena.rs): `n.checked_add(alignment - 1)` then mask,
`none` on `usize` overflow. -/
def roundUp (n alignment : Nat) : Option Nat :=
  if n + (alignment - 1) < USIZE then
    some (n + (alignment - 1) - (n + (alignment - 1)) % alignment)
  else
    none

/-- Model of `round_down` (arena.rs): clear the low bits, i.e. subtract the remainder. -/
def roundDown (n alignment : Nat) : Nat := n - n % alignment

/-- Failure modes of the embedded operations.  `oom` and `tooLarge` are the
two `panic!`/`expect` categories of the source; `internal` is the
`expect("internal error")` in `Arena::try_alloc_str_slow_path`; `diverge`
marks exhaustion of the fuel given to a probe loop. -/
inductive Err where
  | oom
  | tooLarge
  | internal
  | diverge
deriving DecidableEq, Repr

/-- Oracle state for the global allocator.  `next` is the next fresh
8-aligned address to hand out, `failAt` tells which allocation requests
(counted by `count`) return null. -/
structure AllocSt where
  next : Nat
  failAt : Nat → Bool
  count : Nat

/-- One call to `std::alloc::alloc`: either null (as directed by the oracle)
or a fresh address; the reserved region is consumed in either accounting. -/
def AllocSt.allocate (al : AllocSt) (size : Nat) : Option Nat × AllocSt :=
  if al.failAt al.count then
    (none, { al with count := al.count + 1 })
  else
    (some al.next,
     { next := al.next + (size + 7) - (size + 7) % 8,
       failAt := al.failAt,
       count := al.count + 1 })

/-- Well-formedness of the allocator oracle: addresses are 8-aligned and
live in the usual userspace range (in particular far above any string
length that fits in memory). -/
def AllocSt.WF (al : AllocSt) : Prop := al.next % 8 = 0 ∧ 2 ^ 32 ≤ al.next

/-- Oracle that never reports out-of-memory. -/
def AllocSt.NoFail (al : AllocSt) : Prop := ∀ n, al.failAt n = false

/-- Model of `Entry` (entry.rs): in the source it is the raw pointer to the
record's length field; here the pointer value together with what
dereferencing it yields (`| hash (u64) | len | chars |`, the record being
immutable once written). -/
structure Entry where
  addr : Nat
  hash : Nat
  str : String
deriving DecidableEq, Repr

/-- Model of `Entry::as_str` (entry.rs): read back the stored string. -/
def Entry.as_str (e : Entry) : String := e.str

/-- Derived `PartialEq for Entry` / `ScopedSto` (entry.rs, lib.rs): pointer
identity comparison, without dereferencing. -/
def Entry.ptrEq (a b : Entry) : Bool := a.addr == b.addr

/-- Model of `Entries` (entry.rs): the open-addressing table.  `data` is the
slot array of length `mask + 1`; the unallocated state (`mask = 0`) is the
single static `DUMMY_ENTRY_SLOT = None`. -/
structure Entries where
  data : List (Option Entry)
  growth_left : Nat
  mask : Nat
deriving Repr

/-- Model of `Entries::new` (entry.rs): points at the dummy slot, `mask = 0`,
`growth_left = 0`. -/
def Entries.new : Entries :=
  { data := [none], growth_left := 0, mask := 0 }

/-- Slot read `*self.data.add(pos)`; out-of-range reads (never taken from
well-formed states) default to the empty slot. -/
def slotAt (d : List (Option Entry)) (pos : Nat) : Option Entry :=
  d.getD pos none

/-- Number of occupied slots of a table. -/
def occount (d : List (Option Entry)) : Nat :=
  d.countP (fun o => o.isSome)

/-- Match test of the probe loop of `Entries::get_or_insert`:
`entry.hash() == hash && entry.as_str() == string`. -/
def isMatchB (hash : Nat) (s : String) (e : Entry) : Bool :=
  e.hash == hash && e.str == s

/-- Outcome of one probe walk. -/
inductive ProbeRes where
  | found (e : Entry)
  | empty (pos : Nat)
  | diverge
deriving DecidableEq, Repr

/-- The shared probe loop shape of `Entries::get_or_insert` and the
reinsertion loop of `Entries::grow` (entry.rs): starting at `pos` with
current triangular distance `dist`, stop at the first empty slot, or at the
first occupant satisfying `stop` (`get_or_insert` stops on a hash+content
match; the grow loop never stops on an occupant).  Advancing is
`dist += 1; pos = (pos + dist) & mask`; the `wrapping_add` of the source
cannot wrap before the allocator would have failed, so it is plain
addition here.  `fuel` bounds the walk; the loops of the source are
unbounded and `.diverge` stands for non-termination. -/
def probeLoop (d : List (Option Entry)) (mask : Nat) (stop : Entry → Bool) :
    Nat → Nat → Nat → ProbeRes
  | _, _, 0 => .diverge
  | pos, dist, fuel + 1 =>
    match slotAt d pos with
    | some e =>
      if stop e then .found e
      else probeLoop d mask stop (Nat.land (pos + (dist + 1)) mask) (dist + 1) fuel
    | none => .empty pos

/-- Model of `Entries::allocated`: whether the backing array was allocated. -/
def Entries.allocated (en : Entries) : Bool := en.mask != 0

/-- Model of `Entries::capacity` (entry.rs): `mask + 1`. -/
def Entries.capacity (en : Entries) : Nat := en.mask + 1

/-- Model of `Entries::allocated_memory` (entry.rs). -/
def Entries.allocated_memory (en : Entries) : Nat :=
  if en.allocated then SIZE_OF_OPTION_ENTRY * en.capacity else 0

/-- Model of `Entries::capacity_to_mask` (entry.rs). -/
def Entries.capacity_to_mask (capacity : Nat) : Nat := capacity - 1

/-- Model of `Entries::next_capacity` (entry.rs): a fresh table of capacity 1
jumps to the initial capacity, otherwise the capacity doubles. -/
def Entries.next_capacity (capacity : Nat) : Nat :=
  if capacity = 1 then ENTRIES_INITIAL_CAPACITY else capacity * 2

/-- Model of `Entries::max_item_count` (entry.rs): `capacity / 4 * 3`. -/
def Entries.max_item_count (capacity : Nat) : Nat := capacity / 4 * 3

/-- The reinsertion loop of `Entries::grow` (entry.rs): walk the old slots in
order, probe each occupant into the new table, and stop early once
`remaining_items_count` hits zero after a decrement (the decrement wraps at
`usize` like the release-mode source would). -/
def reinsertAll (mask : Nat) :
    List (Option Entry) → List (Option Entry) → Nat → Option (List (Option Entry))
  | [], newData, _ => some newData
  | none :: rest, newData, rem => reinsertAll mask rest newData rem
  | some e :: rest, newData, rem =>
    match probeLoop newData mask (fun _ => false) (Nat.land e.hash mask) 0 (mask + 1) with
    | .found _ => none
    | .diverge => none
    | .empty pos =>
      let newData' := newData.set pos (some e)
      let rem' := if rem = 0 then USIZE - 1 else rem - 1
      if rem' = 0 then some newData' else reinsertAll mask rest newData' rem'

/-- Model of `Entries::grow` (entry.rs): allocate a zeroed table of the next
capacity, reinsert every occupied slot (with the early stop), then install
the new table with `growth_left = max_item_count(new) - cur_items_count`.
The old array's deallocation has no observable effect in the model. -/
def Entries.grow (en : Entries) (al : AllocSt) : Except Err Entries × AllocSt :=
  let curCapacity := en.capacity
  let newCapacity := Entries.next_capacity curCapacity
  let newMask := Entries.capacity_to_mask newCapacity
  match al.allocate (SIZE_OF_OPTION_ENTRY * newCapacity) with
  | (none, al') => (.error .oom, al')
  | (some _, al') =>
    let newData := List.replicate newCapacity (none : Option Entry)
    let curItemsCount := Entries.max_item_count curCapacity
    match reinsertAll newMask en.data newData curItemsCount with
    | none => (.error .diverge, al')
    | some nd =>
      (.ok { data := nd,
             growth_left := Entries.max_item_count newCapacity - curItemsCount,
             mask := newMask }, al')

/-- Result record of `Entries::get_or_insert`: outcome, the table afterwards,
the factory's threaded state (arena-to-be plus allocator), and whether the
`entry_factory` closure was invoked. -/
structure GoiOut (σ : Type) where
  res : Except Err Entry
  entries : Entries
  st : σ
  alloc : AllocSt
  invoked : Bool

/-- Model of `Entries::get_or_insert` (entry.rs): grow when `growth_left`
is zero, probe from `mask & hash` with the triangular step, return a
matching occupant, otherwise call the factory once and store its entry in
the found empty slot. -/
def Entries.get_or_insert {σ : Type} (en : Entries) (hash : Nat) (s : String)
    (factory : σ → AllocSt → Except Err Entry × σ × AllocSt) (st : σ)
    (al : AllocSt) : GoiOut σ :=
  let grown : Except Err Entries × AllocSt :=
    if en.growth_left = 0 then en.grow al else (.ok en, al)
  match grown with
  | (.error e, al') => ⟨.error e, en, st, al', false⟩
  | (.ok en1, al1) =>
    match probeLoop en1.data en1.mask (isMatchB hash s)
        (Nat.land en1.mask hash) 0 en1.capacity with
    | .found e => ⟨.ok e, en1, st, al1, false⟩
    | .diverge => ⟨.error .diverge, en1, st, al1, false⟩
    | .empty pos =>
      match factory st al1 with
      | (.error err, st2, al2) => ⟨.error err, en1, st2, al2, true⟩
      | (.ok eNew, st2, al2) =>
        ⟨.ok eNew,
         { data := en1.data.set pos (some eNew),
           growth_left := en1.growth_left - 1,
           mask := en1.mask }, st2, al2, true⟩

/-- Model of `Chunk` (arena.rs): one contiguous allocation `[low, low+size)`,
the chunk's own control data sitting in the last `SIZE_OF_CHUNK` bytes, the
bump cursor `cur` moving downward from there.  `recs` records, newest first,
the records written into the chunk (the bytes of the source's memory).  The
`prev` pointer is represented by the position in the arena's chain list. -/
structure Chunk where
  low : Nat
  size : Nat
  cur : Nat
  recs : List Entry
deriving DecidableEq, Repr

/-- Model of `Chunk::needed_bytes_for_string` (arena.rs):
`str_len.checked_add(size_of::<usize>() + size_of::<u64>())`. -/
def Chunk.needed_bytes_for_string (str_len : Nat) : Option Nat :=
  if str_len + 16 < USIZE then some (str_len + 16) else none

/-- Model of `Chunk::is_exceed_default_capacity` (arena.rs). -/
def Chunk.is_exceed_default_capacity (needed_bytes : Nat) : Bool :=
  needed_bytes > CHUNK_DEFAULT_CAPACITY - SIZE_OF_CHUNK

/-- Model of `Chunk::is_still_usable` (arena.rs): at least the usability
threshold of bytes between `low` and the cursor. -/
def Chunk.is_still_usable (c : Chunk) : Bool :=
  c.cur - c.low ≥ CHUNK_USABLE_THRESHOLD

/-- Outcome of `Chunk::try_alloc_str` (arena.rs).  `tooLarge` is the
`checked_sub(str_len).expect("too large")` panic, `noSpace` the `None`
result when the record does not fit above `low`. -/
inductive ChunkAlloc where
  | tooLarge
  | noSpace
  | ok (e : Entry) (c : Chunk)
deriving DecidableEq, Repr

/-- Model of `Chunk::try_alloc_str` (arena.rs): bump down from `cur`, align
the character start, require the length+hash header to fit above `low`,
write chars/length/hash and move the cursor to the hash field.  The entry
points at the length field. -/
def Chunk.try_alloc_str (c : Chunk) (hash : Nat) (s : String) : ChunkAlloc :=
  if c.cur < s.length then .tooLarge
  else
    let destChar := roundDown (c.cur - s.length) ALLOC_ALIGNMENT
    if destChar < c.low + 16 then .noSpace
    else
      let e : Entry := { addr := destChar - 8, hash := hash, str := s }
      .ok e { c with cur := destChar - 16, recs := e :: c.recs }

/-- Model of `Chunk::try_new_with_size` (arena.rs): round the size up to the
allocation alignment, allocate, and place the chunk's control data at the
high end with the cursor starting there.  The `prev` link is handled by the
caller through the arena's chain list. -/
def Chunk.try_new_with_size (al : AllocSt) (size : Nat) : Except Err Chunk × AllocSt :=
  match roundUp size ALLOC_ALIGNMENT with
  | none => (.error .tooLarge, al)
  | some rsize =>
    match al.allocate rsize with
    | (none, al') => (.error .oom, al')
    | (some low, al') =>
      (.ok { low := low, size := rsize, cur := low + rsize - SIZE_OF_CHUNK,
             recs := [] }, al')

/-- Model of `Arena` (arena.rs): the chain of chunks, newest first; the empty
list is the dummy chunk (`DUMMY_CHUNK`), whose `cur` and `low` both hold
`DUMMY_CHUNK_ADDR` and whose `size` is zero. -/
structure Arena where
  chain : List Chunk
deriving DecidableEq, Repr

/-- Model of `Arena::new` (arena.rs): head is the dummy chunk. -/
def Arena.new : Arena := ⟨[]⟩

/-- Model of `Arena::allocated_memory` (arena.rs): sum of `size` over the
chain; the dummy chunk contributes zero. -/
def Arena.allocated_memory (a : Arena) : Nat :=
  (a.chain.map (fun c => c.size)).sum

/-- Number of records stored across the arena's chunks. -/
def Arena.recCount (a : Arena) : Nat :=
  (a.chain.map (fun c => c.recs.length)).sum

/-- Model of `Arena::try_alloc_str_slow_path` (arena.rs): compute the exact
need; oversized needs get a dedicated chunk which, when the displaced head
is still usable, is chained *behind* the head via `Chunk::swap` (the head
pointer is left untouched), and otherwise becomes the new head; ordinary
needs get a default-sized chunk as the new head.  The fresh chunk then
serves the request; its failure is the `expect("internal error")` panic,
which would leave the already-mutated chain behind. -/
def Arena.try_alloc_str_slow_path (a : Arena) (al : AllocSt) (hash : Nat)
    (s : String) : Except Err Entry × Arena × AllocSt :=
  match Chunk.needed_bytes_for_string s.length with
  | none => (.error .tooLarge, a, al)
  | some needed_bytes =>
    if Chunk.is_exceed_default_capacity needed_bytes then
      if needed_bytes + SIZE_OF_CHUNK < USIZE then
        match Chunk.try_new_with_size al (needed_bytes + SIZE_OF_CHUNK) with
        | (.error err, al') => (.error err, a, al')
        | (.ok nc, al') =>
          match a.chain with
          | c :: rest =>
            if c.is_still_usable then
              match nc.try_alloc_str hash s with
              | .ok e nc' => (.ok e, ⟨c :: nc' :: rest⟩, al')
              | _ => (.error .internal, ⟨c :: nc :: rest⟩, al')
            else
              match nc.try_alloc_str hash s with
              | .ok e nc' => (.ok e, ⟨nc' :: c :: rest⟩, al')
              | _ => (.error .internal, ⟨nc :: c :: rest⟩, al')
          | [] =>
            match nc.try_alloc_str hash s with
            | .ok e nc' => (.ok e, ⟨[nc']⟩, al')
            | _ => (.error .internal, ⟨[nc]⟩, al')
      else (.error .tooLarge, a, al)
    else
      match Chunk.try_new_with_size al CHUNK_DEFAULT_CAPACITY with
      | (.error err, al') => (.error err, a, al')
      | (.ok nc, al') =>
        match nc.try_alloc_str hash s with
        | .ok e nc' => (.ok e, ⟨nc' :: a.chain⟩, al')
        | _ => (.error .internal, ⟨nc :: a.chain⟩, al')

/-- Model of `Arena::alloc_str` (arena.rs): try the head chunk (the dummy
chunk when the chain is empty: its cursor equals its `low`, so it always
reports `noSpace` unless the length underflows the cursor), then fall back
to the slow path. -/
def Arena.alloc_str (a : Arena) (al : AllocSt) (hash : Nat) (s : String) :
    Except Err Entry × Arena × AllocSt :=
  match a.chain with
  | c :: rest =>
    match c.try_alloc_str hash s with
    | .tooLarge => (.error .tooLarge, a, al)
    | .ok e c' => (.ok e, ⟨c' :: rest⟩, al)
    | .noSpace => a.try_alloc_str_slow_path al hash s
  | [] =>
    if DUMMY_CHUNK_ADDR < s.length then (.error .tooLarge, a, al)
    else a.try_alloc_str_slow_path al hash s

/-- Model of `BucketImpl` (repository.rs): one arena plus one index. -/
structure Bucket where
  arena : Arena
  entries : Entries

/-- Model of `<BucketImpl as Default>::default()`. -/
def Bucket.new : Bucket := ⟨Arena.new, Entries.new⟩

/-- Result record of a bucket- or repository-level interning call. -/
structure InternOut (ρ : Type) where
  res : Except Err Entry
  st : ρ
  alloc : AllocSt
  invoked : Bool

/-- Model of `BucketImpl::get_or_insert` (repository.rs): delegate to the
index with the factory `|| Entry(self.arena.alloc_str(hash, string))`. -/
def Bucket.get_or_insert (b : Bucket) (al : AllocSt) (hash : Nat) (s : String) :
    InternOut Bucket :=
  let out := b.entries.get_or_insert hash s
    (fun ar al => Arena.alloc_str ar al hash s) b.arena al
  ⟨out.res, ⟨out.st, out.entries⟩, out.alloc, out.invoked⟩

/-- Model of `Repository` (repository.rs): `BUCKET_NUMBER` buckets.  The
function representation is read modulo indices `< 64`. -/
structure Repository where
  buckets : Nat → Bucket

/-- Model of `Repository::new` (repository.rs): every bucket default,
nothing allocated. -/
def Repository.new : Repository := ⟨fun _ => Bucket.new⟩

/-- Model of `Repository::get_hash` (repository.rs).  Modelled from the
spec: the fixed-seed `ahash::RandomState` hasher lives in an external crate,
so it is an arbitrary 64-bit-valued function of the string, passed as the
parameter `f`. -/
def Repository.get_hash (f : String → Nat) (s : String) : Nat := f s % USIZE

/-- Model of `Repository::determine_bucket` (repository.rs): the top
`BUCKET_MASK_BITS` bits of the hash. -/
def Repository.determine_bucket (hash : Nat) : Nat := hash >>> BUCKET_RSHIFT

/-- Model of `Repository::get_or_insert` (repository.rs): hash, route to the
bucket, lock it (the lock is the serialization order of the calls) and
delegate. -/
def Repository.get_or_insert (f : String → Nat) (r : Repository) (al : AllocSt)
    (s : String) : InternOut Repository :=
  let hash := Repository.get_hash f s
  let i := Repository.determine_bucket hash
  let out := (r.buckets i).get_or_insert al hash s
  ⟨out.res, ⟨fun j => if j = i then out.st else r.buckets j⟩, out.alloc, out.invoked⟩

/-- Model of `Repository::allocated_memory` (repository.rs). -/
def Repository.allocated_memory (r : Repository) : Nat :=
  ((List.range BUCKET_NUMBER).map (fun i =>
    (r.buckets i).entries.allocated_memory + (r.buckets i).arena.allocated_memory)).sum

/-- Total number of records across the repository's arenas. -/
def Repository.recCount (r : Repository) : Nat :=
  ((List.range BUCKET_NUMBER).map (fun i => (r.buckets i).arena.recCount)).sum

/-- Model of `ScopedSto` (lib.rs): a copyable handle wrapping an `Entry`. -/
structure ScopedSto where
  entry : Entry
deriving DecidableEq, Repr

/-- Model of `ScopedSto::intern_in` (lib.rs). -/
def ScopedSto.intern_in (f : String → Nat) (s : String) (r : Repository)
    (al : AllocSt) : Except Err ScopedSto × Repository × AllocSt :=
  let out := Repository.get_or_insert f r al s
  (out.res.map ScopedSto.mk, out.st, out.alloc)

/-- Model of `ScopedSto::as_str` (lib.rs). -/
def ScopedSto.as_str (a : ScopedSto) : String := a.entry.as_str

/-- Model of the derived `PartialEq for ScopedSto` (lib.rs): derived
structural equality of `Entry(NonNull<u8>)`, i.e. pointer identity. -/
def ScopedSto.eqModel (a b : ScopedSto) : Bool := a.entry.ptrEq b.entry

/-- Model of `Ord for ScopedSto` (lib.rs): `self.as_str().cmp(other.as_str())`. -/
def ScopedSto.cmpModel (a b : ScopedSto) : Ordering :=
  if a.as_str < b.as_str then .lt else if a.as_str = b.as_str then .eq else .gt

/-- Model of `Display for ScopedSto` (lib.rs): writes `as_str`. -/
def ScopedSto.displayModel (a : ScopedSto) : String := a.as_str

/-! ## Probe-sequence mathematics

The probe sequence of `Entries::get_or_insert`/`Entries::grow` visits
positions `(hash + triangle j) & mask`; over a power-of-two table it visits
every slot within `capacity` steps. -/

/-- Triangular numbers: the cumulative probe offset after `n` steps. -/
def triangle (n : Nat) : Nat := n * (n + 1) / 2

/-- Position probed at step `j` for a given hash. -/
def probeIdx (mask hash j : Nat) : Nat := (hash + triangle j) % (mask + 1)

/-! ## Specification-layer definitions

Observations and invariants over the embedded state (the table
well-formedness invariant, pure lookup, repository well-formedness, the
sequentialized multi-request run), plus concrete inputs for closed
instantiations. -/

/-- Entry stored somewhere in the table. -/
def memT (d : List (Option Entry)) (e : Entry) : Prop :=
  ∃ i, i < d.length ∧ slotAt d i = some e

/-- Whether a slot holds a matching occupant. -/
def slotMatches (hash : Nat) (s : String) (o : Option Entry) : Bool :=
  match o with
  | some e => isMatchB hash s e
  | none => false

/-- Some stored entry has the given hash and content. -/
def hasMatch (d : List (Option Entry)) (hash : Nat) (s : String) : Prop :=
  ∃ i, i < d.length ∧ slotMatches hash s (slotAt d i) = true

/-- Open-addressing reachability: every occupant sits on its own probe path
with no empty slot strictly before it. -/
def Reach (d : List (Option Entry)) (mask : Nat) : Prop :=
  ∀ i, i < d.length → ∀ e, slotAt d i = some e →
    ∃ j, j < d.length ∧ probeIdx mask e.hash j = i ∧
      ∀ l, l < j → (slotAt d (probeIdx mask e.hash l)).isSome = true

/-- No two distinct slots hold entries with equal hash and equal content. -/
def NodupT (d : List (Option Entry)) : Prop :=
  ∀ i1 i2 e1 e2, i1 < d.length → i2 < d.length →
    slotAt d i1 = some e1 → slotAt d i2 = some e2 →
    e1.hash = e2.hash → e1.str = e2.str → i1 = i2

/-- The capacity sequence of `Entries`: 1 in the empty state, then the
initial capacity 1024, then doubling. -/
def CapShape (c : Nat) : Prop :=
  c = 1 ∨ ∃ g, c = ENTRIES_INITIAL_CAPACITY * 2 ^ g

/-- Structural invariant of the index: slot count equals
capacity, the capacity shape, the `growth_left` bookkeeping equation, and
the probing invariants. -/
def Entries.Inv (en : Entries) : Prop :=
  en.data.length = en.mask + 1 ∧
  CapShape (en.mask + 1) ∧
  en.growth_left + occount en.data = (en.mask + 1) / 4 * 3 ∧
  Reach en.data en.mask ∧
  NodupT en.data

/-- Pure lookup observation: what the probe loop of `Entries::get_or_insert`
would return on the current table, without inserting. -/
def lookupB (en : Entries) (hash : Nat) (s : String) : Option Entry :=
  match probeLoop en.data en.mask (isMatchB hash s)
      (Nat.land en.mask hash) 0 en.capacity with
  | .found e => some e
  | _ => none

/-- Well-formedness of an arena chain: chunk base addresses are aligned,
live in the allocator's range, and the bump cursor never went below `low`. -/
def Arena.WFa (a : Arena) : Prop :=
  ∀ c ∈ a.chain, c.low % 8 = 0 ∧ 2 ^ 32 ≤ c.low ∧ c.low ≤ c.cur

/-- Pure lookup across the store: what the routed bucket's probe would find. -/
def Repository.lookup (f : String → Nat) (r : Repository) (s : String) :
    Option Entry :=
  lookupB (r.buckets (Repository.determine_bucket (Repository.get_hash f s))).entries
    (Repository.get_hash f s) s

/-- Well-formedness of a repository: every bucket's index satisfies the
structural invariant and every bucket's arena chain is well-placed. -/
def Repository.WFr (r : Repository) : Prop :=
  ∀ i, i < BUCKET_NUMBER → (r.buckets i).entries.Inv ∧ (r.buckets i).arena.WFa

/-- Each bucket holds exactly as many arena records as occupied index slots. -/
def Repository.CountOk (r : Repository) : Prop :=
  ∀ i, i < BUCKET_NUMBER →
    (r.buckets i).arena.recCount = occount (r.buckets i).entries.data

/-- Sequentialized run of `Repository::get_or_insert` over a list of
strings.  Each shard's mutex serializes the store's concurrent callers, so
every concurrent execution is observationally one such list (some
interleaving of the threads' requests). -/
def Repository.internList (f : String → Nat) (r : Repository) (al : AllocSt) :
    List String → Repository × AllocSt × List (Except Err Entry)
  | [] => (r, al, [])
  | s :: rest =>
    let out := Repository.get_or_insert f r al s
    let next := Repository.internList f out.st out.alloc rest
    (next.1, next.2.1, out.res :: next.2.2)

/-- A hash function for concrete runs: the constant hash. -/
def f0 : String → Nat := fun _ => 0

/-- A concrete allocator oracle that never fails. -/
def al0 : AllocSt := { next := 2 ^ 32, failAt := fun _ => false, count := 0 }

/-- A concrete allocator oracle whose second allocation fails. -/
def alFail1 : AllocSt := { next := 2 ^ 32, failAt := fun n => n != 0, count := 0 }

/-- A concrete two-step arena run: a small record first (leaving a usable
default chunk at the head), then an oversized one. -/
def arenaRun1 : Except Err Entry × Arena × AllocSt :=
  Arena.alloc_str Arena.new al0 0 "a"

/-- A string whose record (8145 + 16 bytes) exceeds the default chunk's
usable budget by one byte. -/
def bigStr : String := String.mk (List.replicate 8145 'b')

/-- The second step of the concrete arena run: the oversized record. -/
def arenaRun2 : Except Err Entry × Arena × AllocSt :=
  Arena.alloc_str arenaRun1.2.1 arenaRun1.2.2 0 bigStr

/-- A string whose encoded record size is exactly the default chunk's
usable budget: 8144 + 16 = 8160 bytes. -/
def bdStr0 : String := String.mk (List.replicate 8144 'c')

theorem land_mask_eq_mod (x k : Nat) : Nat.land x (2 ^ k - 1) = x % 2 ^ k := by
  show x &&& (2 ^ k - 1) = x % 2 ^ k
  apply Nat.eq_of_testBit_eq
  intro i
  rw [Nat.testBit_land, Nat.testBit_two_pow_sub_one, Nat.testBit_mod_two_pow,
    Bool.and_comm]

theorem two_mul_triangle (n : Nat) : 2 * triangle n = n * (n + 1) :=
  Nat.mul_div_cancel' (Nat.even_mul_succ_self n).two_dvd

theorem triangle_succ (n : Nat) : triangle (n + 1) = triangle n + (n + 1) := by
  unfold triangle
  have h : (n + 1) * (n + 1 + 1) = n * (n + 1) + 2 * (n + 1) := by ring
  omega

theorem triangle_le_triangle {i j : Nat} (h : i ≤ j) : triangle i ≤ triangle j :=
  Nat.div_le_div_right (Nat.mul_le_mul h (by omega))

theorem triangle_mod_inj_le {k i j : Nat} (hi : i < 2 ^ k) (hj : j < 2 ^ k)
    (h : triangle i % 2 ^ k = triangle j % 2 ^ k) (hle : i ≤ j) : i = j := by
  by_contra hne
  set d := j - i with hd
  have hdpos : 0 < d := by omega
  have hji : j = i + d := by omega
  -- doubled difference identity: `d * (2 i + d + 1) = 2 (T j - T i)`
  have htle : triangle i ≤ triangle j := triangle_le_triangle hle
  have hdvd : 2 ^ k ∣ triangle j - triangle i := (Nat.modEq_iff_dvd' htle).mp h
  obtain ⟨m, hm⟩ := hdvd
  have hident : 2 * triangle j = 2 * triangle i + d * (2 * i + d + 1) := by
    rw [two_mul_triangle, two_mul_triangle, hji]; ring
  have hkey : d * (2 * i + d + 1) = 2 ^ (k + 1) * m := by
    have hpow : 2 ^ (k + 1) * m = 2 * (2 ^ k * m) := by ring
    omega
  have hdvd2 : 2 ^ (k + 1) ∣ d * (2 * i + d + 1) := ⟨m, hkey⟩
  -- exactly one of the two factors is odd, and both are below `2 ^ (k+1)`
  rcases Nat.even_or_odd d with hev | hodd
  · -- `d` even, so `2 i + d + 1` odd: the power divides `d`, impossible
    have hodd2 : ¬ (2 ∣ (2 * i + d + 1)) := by
      rcases hev with ⟨t, ht⟩
      intro ⟨u, hu⟩
      omega
    have hco : Nat.Coprime (2 ^ (k + 1)) (2 * i + d + 1) :=
      Nat.Coprime.pow_left _ ((Nat.Prime.coprime_iff_not_dvd Nat.prime_two).mpr hodd2)
    have hdd : 2 ^ (k + 1) ∣ d := by
      rw [Nat.mul_comm] at hdvd2
      exact hco.dvd_of_dvd_mul_left hdvd2
    have := Nat.le_of_dvd hdpos hdd
    have hk1 : 2 ^ k < 2 ^ (k + 1) := by
      have : (2 : Nat) ^ k < 2 ^ (k + 1) := Nat.pow_lt_pow_succ (by omega)
      exact this
    omega
  · -- `d` odd: the power divides `2 i + d + 1`, impossible by size
    have hodd2 : ¬ (2 ∣ d) := by
      rcases hodd with ⟨t, ht⟩
      intro ⟨u, hu⟩
      omega
    have hco : Nat.Coprime (2 ^ (k + 1)) d :=
      Nat.Coprime.pow_left _ ((Nat.Prime.coprime_iff_not_dvd Nat.prime_two).mpr hodd2)
    have hdd : 2 ^ (k + 1) ∣ (2 * i + d + 1) := hco.dvd_of_dvd_mul_left hdvd2
    have := Nat.le_of_dvd (by omega) hdd
    have hk1 : 2 ^ (k + 1) = 2 * 2 ^ k := by ring
    omega

theorem triangle_mod_inj {k i j : Nat} (hi : i < 2 ^ k) (hj : j < 2 ^ k)
    (h : triangle i % 2 ^ k = triangle j % 2 ^ k) : i = j := by
  rcases Nat.le_total i j with hle | hle
  · exact triangle_mod_inj_le hi hj h hle
  · exact (triangle_mod_inj_le hj hi h.symm hle).symm

theorem probeIdx_lt (mask hash j : Nat) : probeIdx mask hash j < mask + 1 :=
  Nat.mod_lt _ (by omega)

theorem probeIdx_inj {k mask : Nat} (hmask : mask + 1 = 2 ^ k) (hash : Nat)
    {i j : Nat} (hi : i < mask + 1) (hj : j < mask + 1)
    (h : probeIdx mask hash i = probeIdx mask hash j) : i = j := by
  unfold probeIdx at h
  rw [hmask] at h hi hj
  refine triangle_mod_inj hi hj ?_
  exact Nat.ModEq.add_left_cancel (Nat.ModEq.refl hash) h

theorem probeIdx_cover {k mask : Nat} (hmask : mask + 1 = 2 ^ k) (hash : Nat)
    {i : Nat} (hi : i < mask + 1) : ∃ j, j < mask + 1 ∧ probeIdx mask hash j = i := by
  have hpos : 0 < mask + 1 := by omega
  let f : Fin (mask + 1) → Fin (mask + 1) :=
    fun j => ⟨probeIdx mask hash j.val, probeIdx_lt mask hash j.val⟩
  have hinj : Function.Injective f := by
    intro a b hab
    have := probeIdx_inj hmask hash a.isLt b.isLt (congrArg Fin.val hab)
    exact Fin.ext this
  have hsurj : Function.Surjective f := Finite.injective_iff_surjective.mp hinj
  obtain ⟨j, hj⟩ := hsurj ⟨i, hi⟩
  exact ⟨j.val, j.isLt, congrArg Fin.val hj⟩

theorem probeIdx_zero (mask hash : Nat) : probeIdx mask hash 0 = hash % (mask + 1) := by
  unfold probeIdx triangle
  norm_num

theorem probeIdx_step {k mask : Nat} (hmask : mask + 1 = 2 ^ k) (hash j : Nat) :
    Nat.land (probeIdx mask hash j + (j + 1)) mask = probeIdx mask hash (j + 1) := by
  have hm : mask = 2 ^ k - 1 := by omega
  calc Nat.land (probeIdx mask hash j + (j + 1)) mask
      = (probeIdx mask hash j + (j + 1)) % 2 ^ k := by rw [hm, land_mask_eq_mod]
    _ = ((hash + triangle j) % (mask + 1) + (j + 1)) % 2 ^ k := rfl
    _ = ((hash + triangle j) + (j + 1)) % 2 ^ k := by rw [hmask, Nat.mod_add_mod]
    _ = (hash + triangle (j + 1)) % (mask + 1) := by
        rw [hmask, triangle_succ, Nat.add_assoc]
    _ = probeIdx mask hash (j + 1) := rfl

theorem land_start_eq_probeIdx_zero {k mask : Nat} (hmask : mask + 1 = 2 ^ k)
    (hash : Nat) : Nat.land mask hash = probeIdx mask hash 0 := by
  have hm : mask = 2 ^ k - 1 := by omega
  calc Nat.land mask hash = Nat.land hash (2 ^ k - 1) := by
        show mask &&& hash = hash &&& (2 ^ k - 1)
        rw [Nat.land_comm, hm]
    _ = hash % 2 ^ k := land_mask_eq_mod hash k
    _ = hash % (mask + 1) := by rw [hmask]
    _ = probeIdx mask hash 0 := (probeIdx_zero mask hash).symm

/-! ## Table well-formedness -/








theorem capShape_pow {c : Nat} (h : CapShape c) : ∃ k, c = 2 ^ k := by
  rcases h with h | ⟨g, h⟩
  · exact ⟨0, by simpa using h⟩
  · refine ⟨10 + g, ?_⟩
    have h10 : ENTRIES_INITIAL_CAPACITY = 2 ^ 10 := by decide
    rw [h, h10, pow_add]

theorem inv_new : Entries.new.Inv := by
  refine ⟨rfl, Or.inl rfl, rfl, ?_, ?_⟩
  · intro i hi e he
    simp [Entries.new] at hi
    subst hi
    simp [slotAt, Entries.new] at he
  · intro i1 i2 e1 e2 h1 h2 he1 he2
    simp [Entries.new] at h1 h2
    subst h1
    simp [slotAt, Entries.new] at he1

/-! ## Probe-loop characterization -/

theorem probeLoop_found_sound {k mask : Nat} (hmask : mask + 1 = 2 ^ k)
    (d : List (Option Entry)) (stop : Entry → Bool) (hash : Nat) :
    ∀ fuel t e, probeLoop d mask stop (probeIdx mask hash t) t fuel = .found e →
    ∃ j, t ≤ j ∧ j < t + fuel ∧ slotAt d (probeIdx mask hash j) = some e ∧
      stop e = true ∧
      ∀ l, t ≤ l → l < j →
        ∃ e', slotAt d (probeIdx mask hash l) = some e' ∧ stop e' = false := by
  intro fuel
  induction fuel with
  | zero => intro t e h; simp [probeLoop] at h
  | succ fuel ih =>
    intro t e h
    rw [probeLoop] at h
    rcases hslot : slotAt d (probeIdx mask hash t) with _ | e0
    · rw [hslot] at h; simp at h
    · simp only [hslot] at h
      by_cases hstop : stop e0 = true
      · rw [if_pos hstop] at h
        refine ⟨t, le_refl t, by omega, ?_, ?_, ?_⟩
        · rw [hslot]; simp at h; rw [h]
        · simp at h; rw [← h]; exact hstop
        · intro l hl1 hl2; omega
      · rw [if_neg hstop, probeIdx_step hmask] at h
        obtain ⟨j, hj1, hj2, hj3, hj4, hj5⟩ := ih (t + 1) e h
        refine ⟨j, by omega, by omega, hj3, hj4, ?_⟩
        intro l hl1 hl2
        rcases Nat.eq_or_lt_of_le hl1 with hl | hl
        · exact ⟨e0, by subst hl; exact hslot, by simpa using hstop⟩
        · exact hj5 l (by omega) hl2

theorem probeLoop_empty_sound {k mask : Nat} (hmask : mask + 1 = 2 ^ k)
    (d : List (Option Entry)) (stop : Entry → Bool) (hash : Nat) :
    ∀ fuel t pos, probeLoop d mask stop (probeIdx mask hash t) t fuel = .empty pos →
    ∃ j, t ≤ j ∧ j < t + fuel ∧ pos = probeIdx mask hash j ∧
      slotAt d (probeIdx mask hash j) = none ∧
      ∀ l, t ≤ l → l < j →
        ∃ e', slotAt d (probeIdx mask hash l) = some e' ∧ stop e' = false := by
  intro fuel
  induction fuel with
  | zero => intro t pos h; simp [probeLoop] at h
  | succ fuel ih =>
    intro t pos h
    rw [probeLoop] at h
    rcases hslot : slotAt d (probeIdx mask hash t) with _ | e0
    · rw [hslot] at h
      simp at h
      refine ⟨t, le_refl t, by omega, h.symm, hslot, ?_⟩
      intro l hl1 hl2; omega
    · simp only [hslot] at h
      by_cases hstop : stop e0 = true
      · rw [if_pos hstop] at h; simp at h
      · rw [if_neg hstop, probeIdx_step hmask] at h
        obtain ⟨j, hj1, hj2, hj3, hj4, hj5⟩ := ih (t + 1) pos h
        refine ⟨j, by omega, by omega, hj3, hj4, ?_⟩
        intro l hl1 hl2
        rcases Nat.eq_or_lt_of_le hl1 with hl | hl
        · exact ⟨e0, by subst hl; exact hslot, by simpa using hstop⟩
        · exact hj5 l (by omega) hl2

theorem probeLoop_diverge_sound {k mask : Nat} (hmask : mask + 1 = 2 ^ k)
    (d : List (Option Entry)) (stop : Entry → Bool) (hash : Nat) :
    ∀ fuel t, probeLoop d mask stop (probeIdx mask hash t) t fuel = .diverge →
    ∀ l, t ≤ l → l < t + fuel →
      ∃ e', slotAt d (probeIdx mask hash l) = some e' ∧ stop e' = false := by
  intro fuel
  induction fuel with
  | zero => intro t _ l hl1 hl2; omega
  | succ fuel ih =>
    intro t h l hl1 hl2
    rw [probeLoop] at h
    rcases hslot : slotAt d (probeIdx mask hash t) with _ | e0
    · rw [hslot] at h; simp at h
    · simp only [hslot] at h
      by_cases hstop : stop e0 = true
      · rw [if_pos hstop] at h; simp at h
      · rw [if_neg hstop, probeIdx_step hmask] at h
        rcases Nat.eq_or_lt_of_le hl1 with hl | hl
        · exact ⟨e0, by subst hl; exact hslot, by simpa using hstop⟩
        · exact ih (t + 1) h l (by omega) (by omega)

theorem probeLoop_complete {k mask : Nat} (hmask : mask + 1 = 2 ^ k)
    (d : List (Option Entry)) (stop : Entry → Bool) (hash : Nat) :
    ∀ fuel t j, t ≤ j → j < t + fuel →
    (∀ l, t ≤ l → l < j →
      ∃ e', slotAt d (probeIdx mask hash l) = some e' ∧ stop e' = false) →
    (slotAt d (probeIdx mask hash j) = none →
      probeLoop d mask stop (probeIdx mask hash t) t fuel =
        .empty (probeIdx mask hash j)) ∧
    (∀ e, slotAt d (probeIdx mask hash j) = some e → stop e = true →
      probeLoop d mask stop (probeIdx mask hash t) t fuel = .found e) := by
  intro fuel
  induction fuel with
  | zero => intro t j h1 h2 _; omega
  | succ fuel ih =>
    intro t j h1 h2 hbefore
    rcases Nat.eq_or_lt_of_le h1 with hl | hl
    · subst hl
      constructor
      · intro hnone
        rw [probeLoop]
        simp only [hnone]
      · intro e hsome hstop
        rw [probeLoop]
        simp only [hsome]
        rw [if_pos hstop]
    · obtain ⟨e0, he0, hstop0⟩ := hbefore t (le_refl t) hl
      have hrec := ih (t + 1) j hl (by omega)
        (fun l hla hlb => hbefore l (by omega) hlb)
      constructor
      · intro hnone
        rw [probeLoop]
        simp only [he0]
        rw [if_neg (by simp [hstop0]), probeIdx_step hmask]
        exact hrec.1 hnone
      · intro e hsome hstop
        rw [probeLoop]
        simp only [he0]
        rw [if_neg (by simp [hstop0]), probeIdx_step hmask]
        exact hrec.2 e hsome hstop

/-! ## Slot bookkeeping lemmas -/

theorem slotAt_eq_getElem {d : List (Option Entry)} {i : Nat} (h : i < d.length) :
    slotAt d i = d[i] := by
  simp [slotAt, List.getD_eq_getElem?_getD, List.getElem?_eq_getElem h]

theorem slotAt_set_self {d : List (Option Entry)} {pos : Nat} (h : pos < d.length)
    (v : Option Entry) : slotAt (d.set pos v) pos = v := by
  rw [slotAt_eq_getElem (by simpa using h)]
  simp [List.getElem_set, h]

theorem slotAt_set_ne {d : List (Option Entry)} {pos i : Nat} (h : i ≠ pos)
    (v : Option Entry) : slotAt (d.set pos v) i = slotAt d i := by
  simp only [slotAt, List.getD_eq_getElem?_getD, List.getElem?_set]
  rw [if_neg (fun he => h he.symm)]

theorem occount_set_some {d : List (Option Entry)} {pos : Nat}
    (hlt : pos < d.length) (hnone : slotAt d pos = none) (e : Entry) :
    occount (d.set pos (some e)) = occount d + 1 := by
  unfold occount
  rw [List.countP_set _ _ _ _ hlt]
  rw [slotAt_eq_getElem hlt] at hnone
  rw [hnone]
  simp

theorem occount_le_length (d : List (Option Entry)) : occount d ≤ d.length :=
  List.countP_le_length _

theorem exists_empty_of_occount_lt {d : List (Option Entry)}
    (h : occount d < d.length) : ∃ i, i < d.length ∧ slotAt d i = none := by
  by_contra hno
  push_neg at hno
  have hall : ∀ o ∈ d, o.isSome = true := by
    intro o ho
    obtain ⟨n, hn, hno'⟩ := List.mem_iff_getElem.mp ho
    have := hno n hn
    rw [slotAt_eq_getElem hn] at this
    rw [← hno']
    cases hget : d[n] with
    | none => exact absurd hget this
    | some e => simp
  have : occount d = d.length := List.countP_eq_length.mpr hall
  omega

theorem memT_set {d : List (Option Entry)} {pos : Nat} (hlt : pos < d.length)
    (hnone : slotAt d pos = none) (e : Entry) (x : Entry) :
    memT (d.set pos (some e)) x ↔ x = e ∨ memT d x := by
  constructor
  · rintro ⟨i, hi, hx⟩
    rw [List.length_set] at hi
    by_cases hip : i = pos
    · subst hip
      rw [slotAt_set_self hlt] at hx
      injection hx with hx
      exact Or.inl hx.symm
    · rw [slotAt_set_ne hip] at hx
      exact Or.inr ⟨i, hi, hx⟩
  · rintro (hx | ⟨i, hi, hx⟩)
    · subst hx
      exact ⟨pos, by simpa using hlt, slotAt_set_self hlt _⟩
    · refine ⟨i, by simpa using hi, ?_⟩
      have hip : i ≠ pos := by
        intro hip
        subst hip
        rw [hx] at hnone
        exact absurd hnone (by simp)
      rw [slotAt_set_ne hip]
      exact hx

theorem isMatchB_iff {hash : Nat} {s : String} {e : Entry} :
    isMatchB hash s e = true ↔ e.hash = hash ∧ e.str = s := by
  simp [isMatchB]

theorem slotMatches_iff {hash : Nat} {s : String} {o : Option Entry} :
    slotMatches hash s o = true ↔ ∃ e, o = some e ∧ e.hash = hash ∧ e.str = s := by
  cases o with
  | none => simp [slotMatches]
  | some e => simp [slotMatches, isMatchB]

/-! ## Lookup correctness under the invariants -/

theorem probe_finds_match {k mask : Nat} (hmask : mask + 1 = 2 ^ k)
    {d : List (Option Entry)} (hlen : d.length = mask + 1)
    (hre : Reach d mask) (hnd : NodupT d) {hash : Nat} {s : String} {e : Entry}
    (hmem : memT d e) (hh : e.hash = hash) (hs : e.str = s) :
    probeLoop d mask (isMatchB hash s) (Nat.land mask hash) 0 (mask + 1) =
      .found e := by
  obtain ⟨i, hi, hslot⟩ := hmem
  obtain ⟨j, hj, hpj, hbefore⟩ := hre i hi e hslot
  rw [hh] at hpj hbefore
  rw [land_start_eq_probeIdx_zero hmask]
  have hcomp := probeLoop_complete hmask d (isMatchB hash s) hash (mask + 1) 0 j
    (by omega) (by omega) ?before
  case before =>
    intro l _ hl
    have hsl := hbefore l hl
    cases hget : slotAt d (probeIdx mask hash l) with
    | none => rw [hget] at hsl; simp at hsl
    | some e' =>
      refine ⟨e', rfl, ?_⟩
      by_contra hmatch
      rw [Bool.not_eq_false, isMatchB_iff] at hmatch
      have hl1 : probeIdx mask hash l < d.length := by
        rw [hlen]; exact probeIdx_lt mask hash l
      have heq := hnd (probeIdx mask hash l) i e' e hl1 hi hget hslot
        (by rw [hmatch.1, hh]) (by rw [hmatch.2, hs])
      have heq2 : probeIdx mask hash l = probeIdx mask hash j := by
        rw [heq, ← hpj]
      have := probeIdx_inj hmask hash (i := l) (j := j) (by omega) (by omega) heq2
      omega
  exact hcomp.2 e (by rw [hpj]; exact hslot)
    (isMatchB_iff.mpr ⟨hh, hs⟩)

theorem probe_empty_no_match {k mask : Nat} (hmask : mask + 1 = 2 ^ k)
    {d : List (Option Entry)} (hlen : d.length = mask + 1)
    (hre : Reach d mask) (hnd : NodupT d) {hash : Nat} {s : String} {pos : Nat}
    (h : probeLoop d mask (isMatchB hash s) (Nat.land mask hash) 0 (mask + 1) =
      .empty pos) : ¬ hasMatch d hash s := by
  rw [land_start_eq_probeIdx_zero hmask] at h
  obtain ⟨j, _, hj2, hpos, hnone, hbefore⟩ :=
    probeLoop_empty_sound hmask d (isMatchB hash s) hash (mask + 1) 0 pos h
  rintro ⟨i, hi, hm⟩
  obtain ⟨e', hslot', he'h, he's⟩ := slotMatches_iff.mp hm
  obtain ⟨j', hj', hpj', hbefore'⟩ := hre i hi e' hslot'
  rw [he'h] at hpj' hbefore'
  rcases Nat.lt_trichotomy j' j with hlt | heq | hgt
  · obtain ⟨e'', hsl'', hstop''⟩ := hbefore j' (by omega) hlt
    rw [hpj'] at hsl''
    rw [hslot'] at hsl''
    injection hsl'' with hee
    rw [← hee] at hstop''
    rw [isMatchB_iff.mpr ⟨he'h, he's⟩] at hstop''
    simp at hstop''
  · rw [← heq, hpj'] at hnone
    rw [hslot'] at hnone
    simp at hnone
  · have := hbefore' j hgt
    rw [hnone] at this
    simp at this

theorem probe_no_diverge {k mask : Nat} (hmask : mask + 1 = 2 ^ k)
    {d : List (Option Entry)} (hlen : d.length = mask + 1)
    (hocc : occount d < mask + 1) (stop : Entry → Bool) (hash : Nat) :
    probeLoop d mask stop (probeIdx mask hash 0) 0 (mask + 1) ≠ .diverge := by
  intro h
  have hall := probeLoop_diverge_sound hmask d stop hash (mask + 1) 0 h
  obtain ⟨i, hi, hnone⟩ := exists_empty_of_occount_lt (d := d) (by omega)
  obtain ⟨j, hjlt, hpj⟩ := probeIdx_cover hmask hash (i := i) (by omega)
  obtain ⟨e', hsl', _⟩ := hall j (by omega) (by omega)
  rw [hpj, hnone] at hsl'
  simp at hsl'

theorem land_start_eq_probeIdx_zero_rev {k mask : Nat} (hmask : mask + 1 = 2 ^ k)
    (hash : Nat) : Nat.land hash mask = probeIdx mask hash 0 := by
  rw [← land_start_eq_probeIdx_zero hmask hash]
  show hash &&& mask = mask &&& hash
  rw [Nat.land_comm]

theorem hasMatch_iff {d : List (Option Entry)} {hash : Nat} {s : String} :
    hasMatch d hash s ↔ ∃ e, memT d e ∧ e.hash = hash ∧ e.str = s := by
  constructor
  · rintro ⟨i, hi, hm⟩
    obtain ⟨e, he, hh, hs⟩ := slotMatches_iff.mp hm
    exact ⟨e, ⟨i, hi, he⟩, hh, hs⟩
  · rintro ⟨e, ⟨i, hi, he⟩, hh, hs⟩
    exact ⟨i, hi, slotMatches_iff.mpr ⟨e, he, hh, hs⟩⟩

/-- Inserting an entry at the first empty slot of its own probe path keeps
all table invariants, adds exactly that entry, and bumps the occupancy. -/
theorem insert_spec {k mask : Nat} (hmask : mask + 1 = 2 ^ k)
    {d : List (Option Entry)} (hlen : d.length = mask + 1)
    (hre : Reach d mask) (hnd : NodupT d) (e : Entry) {j : Nat} (hj : j < mask + 1)
    (hempty : slotAt d (probeIdx mask e.hash j) = none)
    (hocc : ∀ l, l < j → (slotAt d (probeIdx mask e.hash l)).isSome = true)
    (hnokey : ¬ hasMatch d e.hash e.str) :
    (d.set (probeIdx mask e.hash j) (some e)).length = mask + 1 ∧
    Reach (d.set (probeIdx mask e.hash j) (some e)) mask ∧
    NodupT (d.set (probeIdx mask e.hash j) (some e)) ∧
    occount (d.set (probeIdx mask e.hash j) (some e)) = occount d + 1 ∧
    (∀ x, memT (d.set (probeIdx mask e.hash j) (some e)) x ↔ x = e ∨ memT d x) := by
  set pos := probeIdx mask e.hash j with hpos
  have hposlt : pos < d.length := by rw [hlen]; exact probeIdx_lt mask e.hash j
  have hsetlen : (d.set pos (some e)).length = mask + 1 := by
    rw [List.length_set, hlen]
  have hmono : ∀ i, (slotAt d i).isSome = true →
      (slotAt (d.set pos (some e)) i).isSome = true := by
    intro i hi
    by_cases hip : i = pos
    · subst hip
      rw [slotAt_set_self hposlt]
      simp
    · rw [slotAt_set_ne hip]
      exact hi
  refine ⟨hsetlen, ?_, ?_, occount_set_some hposlt hempty e,
    memT_set hposlt hempty e⟩
  · -- reachability
    intro i hi x hx
    rw [List.length_set] at hi
    by_cases hip : i = pos
    · subst hip
      rw [slotAt_set_self hposlt] at hx
      injection hx with hx
      subst hx
      refine ⟨j, by omega, hpos.symm, ?_⟩
      intro l hl
      exact hmono _ (hocc l hl)
    · rw [slotAt_set_ne hip] at hx
      obtain ⟨j', hj', hpj', hb'⟩ := hre i hi x hx
      refine ⟨j', by rw [hsetlen]; rw [hlen] at hj'; exact hj', hpj', ?_⟩
      intro l hl
      exact hmono _ (hb' l hl)
  · -- no duplicate keys
    intro i1 i2 e1 e2 hi1 hi2 he1 he2 hh hs
    rw [List.length_set] at hi1 hi2
    by_cases h1 : i1 = pos <;> by_cases h2 : i2 = pos
    · rw [h1, h2]
    · subst h1
      rw [slotAt_set_self hposlt] at he1
      injection he1 with he1
      rw [slotAt_set_ne h2] at he2
      exfalso
      exact hnokey (hasMatch_iff.mpr ⟨e2, ⟨i2, hi2, he2⟩,
        by rw [← hh, ← he1], by rw [← hs, ← he1]⟩)
    · subst h2
      rw [slotAt_set_self hposlt] at he2
      injection he2 with he2
      rw [slotAt_set_ne h1] at he1
      exfalso
      exact hnokey (hasMatch_iff.mpr ⟨e1, ⟨i1, hi1, he1⟩,
        by rw [hh, ← he2], by rw [hs, ← he2]⟩)
    · rw [slotAt_set_ne h1] at he1
      rw [slotAt_set_ne h2] at he2
      exact hnd i1 i2 e1 e2 hi1 hi2 he1 he2 hh hs

theorem nodupT_cons_tail {o : Option Entry} {rest : List (Option Entry)}
    (h : NodupT (o :: rest)) : NodupT rest := by
  intro i1 i2 e1 e2 hi1 hi2 he1 he2 hh hs
  have h1 : slotAt (o :: rest) (i1 + 1) = some e1 := by
    simpa [slotAt] using he1
  have h2 : slotAt (o :: rest) (i2 + 1) = some e2 := by
    simpa [slotAt] using he2
  have := h (i1 + 1) (i2 + 1) e1 e2 (by simpa using hi1) (by simpa using hi2)
    h1 h2 hh hs
  omega

theorem nodupT_cons_head {e : Entry} {rest : List (Option Entry)}
    (h : NodupT (some e :: rest)) {e2 : Entry} (hmem : some e2 ∈ rest)
    (hh : e2.hash = e.hash) (hs : e2.str = e.str) : False := by
  obtain ⟨n, hn, hget⟩ := List.mem_iff_getElem.mp hmem
  have h2 : slotAt (some e :: rest) (n + 1) = some e2 := by
    simp [slotAt, List.getD_eq_getElem?_getD, List.getElem?_eq_getElem hn, hget]
  have h0 : slotAt (some e :: rest) 0 = some e := by simp [slotAt]
  have := h 0 (n + 1) e e2 (by simp) (by simpa using hn) h0 h2
    (by rw [hh]) (by rw [hs])
  omega

/-- Correctness of the rehash loop of `Entries::grow`: called with
`rem` equal to the number of occupants of the remaining old slots and a new
table with room for all of them, it succeeds, preserves the invariants of
the new table, and moves exactly the old occupants (the early stop fires
exactly at the last occupant, so nothing is lost). -/
theorem reinsertAll_spec {k mask : Nat} (hmask : mask + 1 = 2 ^ k) :
    ∀ (old nd : List (Option Entry)) (rem : Nat),
    nd.length = mask + 1 →
    Reach nd mask → NodupT nd →
    rem = old.countP (fun o => o.isSome) →
    occount nd + old.countP (fun o => o.isSome) < mask + 1 →
    (∀ e, some e ∈ old → ¬ hasMatch nd e.hash e.str) →
    NodupT old →
    ∃ nd', reinsertAll mask old nd rem = some nd' ∧
      nd'.length = mask + 1 ∧ Reach nd' mask ∧ NodupT nd' ∧
      occount nd' = occount nd + old.countP (fun o => o.isSome) ∧
      (∀ x, memT nd' x ↔ memT nd x ∨ some x ∈ old) := by
  intro old
  induction old with
  | nil =>
    intro nd rem hlen hre hnd hrem hbound hdisj hnods
    refine ⟨nd, rfl, hlen, hre, hnd, by simp, ?_⟩
    intro x
    simp
  | cons o rest ih =>
    intro nd rem hlen hre hnd hrem hbound hdisj hnods
    cases o with
    | none =>
      have hcount : (none :: rest).countP (fun o => o.isSome) =
          rest.countP (fun o => o.isSome) := by simp
      rw [hcount] at hrem hbound
      obtain ⟨nd', h1, h2, h3, h4, h5, h6⟩ := ih nd rem hlen hre hnd hrem hbound
        (fun e he => hdisj e (List.mem_cons_of_mem _ he)) (nodupT_cons_tail hnods)
      refine ⟨nd', h1, h2, h3, h4, by rw [h5, hcount], ?_⟩
      intro x
      rw [h6]
      simp
    | some e =>
      have hcount : (some e :: rest).countP (fun o => o.isSome) =
          rest.countP (fun o => o.isSome) + 1 := by simp
      rw [hcount] at hbound
      have hocc : occount nd < mask + 1 := by omega
      rcases hprobe : probeLoop nd mask (fun _ => false)
          (Nat.land e.hash mask) 0 (mask + 1) with e' | pos | _
      · -- a never-stopping probe cannot stop on an occupant
        exfalso
        have hprobe2 := hprobe
        rw [land_start_eq_probeIdx_zero_rev hmask] at hprobe2
        obtain ⟨j, _, _, _, habs, _⟩ :=
          probeLoop_found_sound hmask nd (fun _ => false) e.hash (mask + 1) 0 e'
            hprobe2
        simp at habs
      case diverge =>
        exfalso
        have hprobe2 := hprobe
        rw [land_start_eq_probeIdx_zero_rev hmask] at hprobe2
        exact probe_no_diverge hmask hlen hocc (fun _ => false) e.hash hprobe2
      -- empty slot found at `pos`
      have hprobe2 := hprobe
      rw [land_start_eq_probeIdx_zero_rev hmask] at hprobe2
      obtain ⟨j, _, hjlt, hposj, hnone, hbefore⟩ :=
        probeLoop_empty_sound hmask nd (fun _ => false) e.hash (mask + 1) 0 pos
          hprobe2
      subst hposj
      have hnokey : ¬ hasMatch nd e.hash e.str := hdisj e (List.mem_cons_self _ _)
      obtain ⟨hlen', hre', hnd', hocc', hmem'⟩ :=
        insert_spec hmask hlen hre hnd e (j := j) (by omega) hnone
          (fun l hl => by
            obtain ⟨e'', hsl, _⟩ := hbefore l (by omega) hl
            rw [hsl]; rfl) hnokey
      have hrempos : rem = rest.countP (fun o => o.isSome) + 1 := by
        rw [hrem, hcount]
      have hdisj' : ∀ e2, some e2 ∈ rest →
          ¬ hasMatch (nd.set (probeIdx mask e.hash j) (some e)) e2.hash e2.str := by
        intro e2 he2 habs
        obtain ⟨x, hx, hxh, hxs⟩ := hasMatch_iff.mp habs
        rw [hmem' x] at hx
        rcases hx with hx | hx
        · subst hx
          exact nodupT_cons_head hnods he2 hxh.symm hxs.symm
        · exact hdisj e2 (List.mem_cons_of_mem _ he2)
            (hasMatch_iff.mpr ⟨x, hx, hxh, hxs⟩)
      have hrem0 : rem ≠ 0 := by omega
      have hwrap : (if rem = 0 then USIZE - 1 else rem - 1) = rem - 1 :=
        if_neg hrem0
      have hstep : reinsertAll mask (some e :: rest) nd rem =
          (if rem - 1 = 0
           then some (nd.set (probeIdx mask e.hash j) (some e))
           else reinsertAll mask rest (nd.set (probeIdx mask e.hash j) (some e))
             (rem - 1)) := by
        conv_lhs => rw [reinsertAll]
        simp only [hprobe, hwrap]
      by_cases hz : rest.countP (fun o => o.isSome) = 0
      · -- early stop fires now; the remaining suffix holds no occupants
        have hnomem : ∀ x : Entry, some x ∈ rest → False := by
          intro x hx
          have := List.countP_eq_zero.mp hz _ hx
          simp at this
        refine ⟨nd.set (probeIdx mask e.hash j) (some e), ?_, hlen', hre', hnd',
          ?_, ?_⟩
        · rw [hstep, if_pos (by omega)]
        · rw [hocc', hcount, hz]
        · intro x
          rw [hmem' x, List.mem_cons]
          constructor
          · rintro (hx | hx)
            · exact Or.inr (Or.inl (by rw [hx]))
            · exact Or.inl hx
          · rintro (hx | hx | hx)
            · exact Or.inr hx
            · injection hx with hx
              exact Or.inl hx
            · exact absurd hx (hnomem x)
      · -- recurse over the remaining old slots
        have harg1 : rem - 1 = rest.countP (fun o => o.isSome) := by omega
        have harg2 : occount (nd.set (probeIdx mask e.hash j) (some e)) +
            rest.countP (fun o => o.isSome) < mask + 1 := by
          rw [hocc']
          omega
        obtain ⟨nd'', h1, h2, h3, h4, h5, h6⟩ := ih
          (nd.set (probeIdx mask e.hash j) (some e)) (rem - 1) hlen' hre' hnd'
          harg1 harg2
          (fun e2 he2 => hdisj' e2 he2) (nodupT_cons_tail hnods)
        refine ⟨nd'', ?_, h2, h3, h4, ?_, ?_⟩
        · rw [hstep, if_neg (by omega)]
          exact h1
        · rw [h5, hocc', hcount]
          omega
        · intro x
          rw [h6 x, hmem' x, List.mem_cons]
          constructor
          · rintro ((hx | hx) | hx)
            · exact Or.inr (Or.inl (by rw [hx]))
            · exact Or.inl hx
            · exact Or.inr (Or.inr hx)
          · rintro (hx | hx | hx)
            · exact Or.inl (Or.inr hx)
            · injection hx with hx
              exact Or.inl (Or.inl hx)
            · exact Or.inr hx

theorem slotAt_replicate (n i : Nat) :
    slotAt (List.replicate n (none : Option Entry)) i = none := by
  unfold slotAt
  by_cases h : i < n
  · rw [List.getD_eq_getElem?_getD, List.getElem?_eq_getElem (by simpa using h)]
    simp
  · rw [List.getD_eq_getElem?_getD, List.getElem?_eq_none (by simpa using h)]
    rfl

theorem occount_replicate (n : Nat) :
    occount (List.replicate n (none : Option Entry)) = 0 := by
  unfold occount
  rw [List.countP_eq_zero]
  intro a ha
  rw [List.eq_of_mem_replicate ha]
  simp

theorem allocate_ok {al : AllocSt} (hnf : al.failAt al.count = false) (sz : Nat) :
    al.allocate sz =
      (some al.next,
       { next := al.next + (sz + 7) - (sz + 7) % 8,
         failAt := al.failAt, count := al.count + 1 }) := by
  unfold AllocSt.allocate
  rw [hnf]
  simp

theorem allocate_noFail {al : AllocSt} (hnf : al.NoFail) (sz : Nat) :
    ((al.allocate sz).2).NoFail := by
  unfold AllocSt.allocate
  by_cases h : al.failAt al.count = true
  · rw [if_pos h]; exact hnf
  · rw [if_neg h]; exact hnf

theorem allocate_WF {al : AllocSt} (hwf : al.WF) (sz : Nat) :
    ((al.allocate sz).2).WF := by
  unfold AllocSt.allocate
  obtain ⟨ha, hb⟩ := hwf
  by_cases h : al.failAt al.count = true
  · rw [if_pos h]; exact ⟨ha, hb⟩
  · rw [if_neg h]
    refine ⟨?_, by simp; omega⟩
    have h8 : ((sz + 7) - (sz + 7) % 8) % 8 = 0 := by omega
    simp only
    omega

/-- Specification of `Entries::grow` from a full table (`growth_left = 0`)
with a working allocator: it succeeds, doubles (or initializes) the
capacity, preserves exactly the stored entries, and re-establishes the
structural invariant with
`growth_left = max_item_count(new) - previous occupant count`. -/
theorem grow_spec {en : Entries} (hInv : en.Inv) (hgl : en.growth_left = 0)
    {al : AllocSt} (hnf : al.failAt al.count = false) :
    ∃ en' al', en.grow al = (.ok en', al') ∧ en'.Inv ∧
      en'.mask + 1 = Entries.next_capacity (en.mask + 1) ∧
      en'.growth_left = Entries.max_item_count (en'.mask + 1) - occount en.data ∧
      occount en'.data = occount en.data ∧
      (∀ x, memT en'.data x ↔ memT en.data x) ∧
      al' = (al.allocate (SIZE_OF_OPTION_ENTRY *
        Entries.next_capacity (en.mask + 1))).2 := by
  obtain ⟨hlen, hcap, hcnt, hre, hnd⟩ := hInv
  -- shape of the next capacity
  have hshape : ∃ k', Entries.next_capacity (en.mask + 1) = 2 ^ k' ∧
      CapShape (Entries.next_capacity (en.mask + 1)) ∧
      (en.mask + 1) / 4 * 3 < Entries.next_capacity (en.mask + 1) ∧
      (en.mask + 1) / 4 * 3 ≤ Entries.next_capacity (en.mask + 1) / 4 * 3 := by
    rcases hcap with h1 | ⟨g, hg⟩
    · refine ⟨10, ?_, ?_, ?_, ?_⟩
      · rw [h1]; decide
      · rw [h1]
        exact Or.inr ⟨0, by decide⟩
      · rw [h1]; decide
      · rw [h1]; decide
    · have hc2 : en.mask + 1 ≠ 1 := by
        have h1024 : ENTRIES_INITIAL_CAPACITY = 1024 := by decide
        rw [hg, h1024]
        have : (0:Nat) < 2 ^ g := Nat.pos_pow_of_pos g (by omega)
        omega
      refine ⟨10 + (g + 1), ?_, Or.inr ⟨g + 1, ?_⟩, ?_, ?_⟩
      · rw [Entries.next_capacity, if_neg hc2, hg]
        have h1024 : ENTRIES_INITIAL_CAPACITY = 2 ^ 10 := by decide
        rw [h1024, pow_add, pow_succ]
        ring
      · rw [Entries.next_capacity, if_neg hc2, hg, pow_succ]
        ring
      · rw [Entries.next_capacity, if_neg hc2]
        omega
      · rw [Entries.next_capacity, if_neg hc2]
        omega
  obtain ⟨k', hk', hshape2, hlt, hle⟩ := hshape
  set newCap := Entries.next_capacity (en.mask + 1) with hnc
  have hmask' : Entries.capacity_to_mask newCap + 1 = 2 ^ k' := by
    unfold Entries.capacity_to_mask
    have : 0 < newCap := by rw [hk']; exact Nat.pos_pow_of_pos k' (by omega)
    omega
  have hocc : occount en.data = (en.mask + 1) / 4 * 3 := by omega
  -- the reinsertion succeeds
  have hrein := reinsertAll_spec hmask' en.data
    (List.replicate newCap (none : Option Entry)) (Entries.max_item_count (en.mask + 1))
    (by
      rw [List.length_replicate]
      unfold Entries.capacity_to_mask
      have : 0 < newCap := by rw [hk']; exact Nat.pos_pow_of_pos k' (by omega)
      omega)
    (by
      intro i hi e he
      rw [slotAt_replicate] at he
      exact absurd he (by simp))
    (by
      intro i1 i2 e1 e2 hi1 hi2 he1 he2
      rw [slotAt_replicate] at he1
      exact absurd he1 (by simp))
    (by rw [Entries.max_item_count, ← hocc]; rfl)
    (by
      rw [occount_replicate]
      show 0 + occount en.data < Entries.capacity_to_mask newCap + 1
      unfold Entries.capacity_to_mask
      have : 0 < newCap := by rw [hk']; exact Nat.pos_pow_of_pos k' (by omega)
      omega)
    (by
      intro e hmem habs
      obtain ⟨ix, hix, hm⟩ := habs
      rw [slotAt_replicate] at hm
      simp [slotMatches] at hm)
    hnd
  obtain ⟨nd', hrein1, hrein2, hrein3, hrein4, hrein5, hrein6⟩ := hrein
  refine ⟨{ data := nd',
            growth_left := Entries.max_item_count newCap -
              Entries.max_item_count (en.mask + 1),
            mask := Entries.capacity_to_mask newCap },
          (al.allocate (SIZE_OF_OPTION_ENTRY * newCap)).2, ?_, ?_, ?_, ?_, ?_, ?_, rfl⟩
  · -- the computation of `grow` itself
    simp only [Entries.grow, Entries.capacity, allocate_ok hnf, hrein1]
  · -- the invariant afterwards
    have hpos : 0 < newCap := by rw [hk']; exact Nat.pos_pow_of_pos k' (by omega)
    have hcapeq : Entries.capacity_to_mask newCap + 1 = newCap := by
      unfold Entries.capacity_to_mask
      omega
    refine ⟨hrein2, ?_, ?_, hrein3, hrein4⟩
    · show CapShape (Entries.capacity_to_mask newCap + 1)
      rw [hcapeq]
      exact hshape2
    · show Entries.max_item_count newCap - Entries.max_item_count (en.mask + 1) +
        occount nd' = (Entries.capacity_to_mask newCap + 1) / 4 * 3
      have hoc2 : List.countP (fun o => o.isSome) en.data =
          (en.mask + 1) / 4 * 3 := hocc
      rw [hcapeq, hrein5, occount_replicate, Nat.zero_add, hoc2]
      unfold Entries.max_item_count
      omega
  · show Entries.capacity_to_mask newCap + 1 = Entries.next_capacity (en.mask + 1)
    have hpos : 0 < newCap := by rw [hk']; exact Nat.pos_pow_of_pos k' (by omega)
    unfold Entries.capacity_to_mask
    omega
  · show Entries.max_item_count newCap - Entries.max_item_count (en.mask + 1) =
      Entries.max_item_count (Entries.capacity_to_mask newCap + 1) - occount en.data
    have hpos : 0 < newCap := by rw [hk']; exact Nat.pos_pow_of_pos k' (by omega)
    have hcapeq : Entries.capacity_to_mask newCap + 1 = newCap := by
      unfold Entries.capacity_to_mask
      omega
    rw [hcapeq, hocc]
    unfold Entries.max_item_count
    omega
  · show occount nd' = occount en.data
    rw [hrein5, occount_replicate, Nat.zero_add]
    rfl
  · intro x
    show memT nd' x ↔ memT en.data x
    rw [hrein6 x]
    constructor
    · rintro (hx | hx)
      · obtain ⟨i, hi, hsl⟩ := hx
        rw [slotAt_replicate] at hsl
        exact absurd hsl (by simp)
      · obtain ⟨n, hn, hget⟩ := List.mem_iff_getElem.mp hx
        exact ⟨n, hn, by rw [slotAt_eq_getElem hn, hget]⟩
    · rintro ⟨i, hi, hsl⟩
      refine Or.inr ?_
      rw [slotAt_eq_getElem hi] at hsl
      rw [← hsl]
      exact List.getElem_mem hi

/-- Occupancy never reaches capacity (the load factor stays at 3/4). -/
theorem inv_occ_lt {en : Entries} (hInv : en.Inv) :
    occount en.data < en.mask + 1 := by
  obtain ⟨_, _, hcnt, _, _⟩ := hInv
  omega


theorem inv_capacity_pow {en : Entries} (hInv : en.Inv) :
    ∃ k, en.mask + 1 = 2 ^ k :=
  capShape_pow hInv.2.1

theorem lookupB_some_iff {en : Entries} (hInv : en.Inv) {hash : Nat} {s : String}
    {e : Entry} : lookupB en hash s = some e ↔
      memT en.data e ∧ e.hash = hash ∧ e.str = s := by
  obtain ⟨k, hk⟩ := inv_capacity_pow hInv
  obtain ⟨hlen, hcap, hcnt, hre, hnd⟩ := hInv
  constructor
  · intro h
    unfold lookupB at h
    rcases hprobe : probeLoop en.data en.mask (isMatchB hash s)
        (Nat.land en.mask hash) 0 en.capacity with e' | pos | _
    · rw [hprobe] at h
      simp at h
      have hprobe2 := hprobe
      rw [land_start_eq_probeIdx_zero hk] at hprobe2
      obtain ⟨j, _, hjlt, hslot, hmatch, _⟩ :=
        probeLoop_found_sound hk en.data (isMatchB hash s) hash en.capacity 0 e'
          hprobe2
      obtain ⟨hh, hs⟩ := isMatchB_iff.mp hmatch
      subst h
      exact ⟨⟨probeIdx en.mask hash j, by rw [hlen]; exact probeIdx_lt _ _ _,
        hslot⟩, hh, hs⟩
    · rw [hprobe] at h
      simp at h
    · rw [hprobe] at h
      simp at h
  · rintro ⟨hmem, hh, hs⟩
    unfold lookupB
    rw [show en.capacity = en.mask + 1 from rfl,
      probe_finds_match hk hlen hre hnd hmem hh hs]

theorem lookupB_none_iff {en : Entries} (hInv : en.Inv) {hash : Nat} {s : String} :
    lookupB en hash s = none ↔ ¬ hasMatch en.data hash s := by
  obtain ⟨k, hk⟩ := inv_capacity_pow hInv
  have hocc := inv_occ_lt hInv
  obtain ⟨hlen, hcap, hcnt, hre, hnd⟩ := hInv
  constructor
  · intro h
    unfold lookupB at h
    rcases hprobe : probeLoop en.data en.mask (isMatchB hash s)
        (Nat.land en.mask hash) 0 en.capacity with e' | pos | _
    · rw [hprobe] at h; exact absurd h (by simp)
    · exact probe_empty_no_match hk hlen hre hnd hprobe
    · exact absurd hprobe (by
        rw [show en.capacity = en.mask + 1 from rfl,
          land_start_eq_probeIdx_zero hk]
        exact probe_no_diverge hk hlen hocc _ hash)
  · intro h
    cases hl : lookupB en hash s with
    | none => rfl
    | some e =>
      obtain ⟨hmem, hh, hs⟩ := lookupB_some_iff ⟨hlen, hcap, hcnt, hre, hnd⟩ |>.mp hl
      exact absurd (hasMatch_iff.mpr ⟨e, hmem, hh, hs⟩) h

theorem lookupB_congr {en en' : Entries} (hInv : en.Inv) (hInv' : en'.Inv)
    (hiff : ∀ x, memT en'.data x ↔ memT en.data x) (hash : Nat) (s : String) :
    lookupB en' hash s = lookupB en hash s := by
  cases hl : lookupB en hash s with
  | some e =>
    obtain ⟨hmem, hh, hs⟩ := (lookupB_some_iff hInv).mp hl
    exact (lookupB_some_iff hInv').mpr ⟨(hiff e).mpr hmem, hh, hs⟩
  | none =>
    have hno := (lookupB_none_iff hInv).mp hl
    refine (lookupB_none_iff hInv').mpr ?_
    intro habs
    obtain ⟨x, hx, hh, hs⟩ := hasMatch_iff.mp habs
    exact hno (hasMatch_iff.mpr ⟨x, (hiff x).mp hx, hh, hs⟩)

theorem max_item_count_lt_next {c : Nat} (h : CapShape c) :
    Entries.max_item_count c < Entries.max_item_count (Entries.next_capacity c) := by
  rcases h with h1 | ⟨g, hg⟩
  · rw [h1]; decide
  · have hge : 1024 ≤ c := by
      have h2 : 1 ≤ 2 ^ g := Nat.one_le_two_pow
      have h1024 : ENTRIES_INITIAL_CAPACITY = 1024 := by decide
      rw [hg, h1024]
      omega
  -- doubling case
    have hne : c ≠ 1 := by omega
    unfold Entries.next_capacity Entries.max_item_count
    rw [if_neg hne]
    omega

/-- The growth step at the head of `Entries::get_or_insert`: with a working
allocator it yields a well-formed table with strictly positive
`growth_left` and exactly the same stored entries. -/
theorem goi_grow_step {en : Entries} {al : AllocSt} (hInv : en.Inv)
    (hnf : al.NoFail) :
    ∃ en1 al1,
      (if en.growth_left = 0 then en.grow al else (Except.ok en, al)) =
        (.ok en1, al1) ∧
      en1.Inv ∧ 0 < en1.growth_left ∧ al1.NoFail ∧ (al.WF → al1.WF) ∧
      (∀ x, memT en1.data x ↔ memT en.data x) ∧
      occount en1.data = occount en.data := by
  by_cases hgl : en.growth_left = 0
  · obtain ⟨en', al', hgrow, hInv', hcap', hgl', hocc', hmem', hal'⟩ :=
      grow_spec hInv hgl (hnf al.count)
    refine ⟨en', al', by rw [if_pos hgl]; exact hgrow, hInv', ?_, ?_, ?_, hmem',
      hocc'⟩
    · -- growth_left is positive after a grow
      rw [hgl']
      have hocc2 : occount en.data = (en.mask + 1) / 4 * 3 := by
        have := hInv.2.2.1
        omega
      have hlt := max_item_count_lt_next hInv.2.1
      rw [hcap']
      rw [hocc2]
      unfold Entries.max_item_count at hlt ⊢
      omega
    · rw [hal']
      exact allocate_noFail hnf _
    · intro hwf
      rw [hal']
      exact allocate_WF hwf _
  · exact ⟨en, al, by rw [if_neg hgl], hInv, by omega, hnf, fun h => h,
      fun x => Iff.rfl, rfl⟩

/-- Full case analysis of `Entries::get_or_insert` with a working allocator:
after the (possibly growing) setup, a present key is returned without
invoking the factory, and an absent key leads to exactly one factory call
whose entry is stored in the first empty probed slot (or whose failure is
propagated with no slot written). -/
theorem get_or_insert_spec {σ : Type} (en : Entries) (hash : Nat) (s : String)
    (factory : σ → AllocSt → Except Err Entry × σ × AllocSt) (st : σ)
    (al : AllocSt) (hInv : en.Inv) (hnf : al.NoFail) :
    ∃ en1 al1,
      en1.Inv ∧ 0 < en1.growth_left ∧ al1.NoFail ∧ (al.WF → al1.WF) ∧
      (∀ x, memT en1.data x ↔ memT en.data x) ∧
      occount en1.data = occount en.data ∧
      (∀ e0, lookupB en hash s = some e0 →
        en.get_or_insert hash s factory st al = ⟨.ok e0, en1, st, al1, false⟩) ∧
      (lookupB en hash s = none →
        ∃ j, j < en1.mask + 1 ∧
          slotAt en1.data (probeIdx en1.mask hash j) = none ∧
          (∀ l, l < j → ∃ e', slotAt en1.data (probeIdx en1.mask hash l) = some e' ∧
            isMatchB hash s e' = false) ∧
          (∀ err st2 al2, factory st al1 = (.error err, st2, al2) →
            en.get_or_insert hash s factory st al = ⟨.error err, en1, st2, al2, true⟩) ∧
          (∀ eNew st2 al2, factory st al1 = (.ok eNew, st2, al2) →
            en.get_or_insert hash s factory st al =
              ⟨.ok eNew,
               { data := en1.data.set (probeIdx en1.mask hash j) (some eNew),
                 growth_left := en1.growth_left - 1,
                 mask := en1.mask }, st2, al2, true⟩)) := by
  obtain ⟨en1, al1, hgrow, hInv1, hgl1, hnf1, hwf1, hmem1, hocc1⟩ :=
    goi_grow_step hInv hnf
  obtain ⟨k, hk⟩ := inv_capacity_pow hInv1
  have hlook : lookupB en1 hash s = lookupB en hash s :=
    lookupB_congr hInv hInv1 hmem1 hash s
  refine ⟨en1, al1, hInv1, hgl1, hnf1, hwf1, hmem1, hocc1, ?_, ?_⟩
  · -- hit
    intro e0 h0
    have h1 : lookupB en1 hash s = some e0 := by rw [hlook, h0]
    unfold lookupB at h1
    rcases hprobe : probeLoop en1.data en1.mask (isMatchB hash s)
        (Nat.land en1.mask hash) 0 en1.capacity with e' | pos | _
    · rw [hprobe] at h1
      simp at h1
      subst h1
      unfold Entries.get_or_insert
      rw [hgrow]
      simp only [hprobe]
    · rw [hprobe] at h1
      simp at h1
    · rw [hprobe] at h1
      simp at h1
  · -- miss
    intro h0
    have h1 : lookupB en1 hash s = none := by rw [hlook, h0]
    unfold lookupB at h1
    rcases hprobe : probeLoop en1.data en1.mask (isMatchB hash s)
        (Nat.land en1.mask hash) 0 en1.capacity with e' | pos | _
    · rw [hprobe] at h1
      simp at h1
    · -- empty slot found
      have hprobe2 := hprobe
      rw [show en1.capacity = en1.mask + 1 from rfl,
        land_start_eq_probeIdx_zero hk] at hprobe2
      obtain ⟨j, _, hjlt, hposj, hnone, hbefore⟩ :=
        probeLoop_empty_sound hk en1.data (isMatchB hash s) hash (en1.mask + 1)
          0 pos hprobe2
      refine ⟨j, by omega, hnone, ?_, ?_, ?_⟩
      · intro l hl
        exact hbefore l (by omega) hl
      · intro err st2 al2 hfac
        unfold Entries.get_or_insert
        rw [hgrow]
        simp only [hprobe, hposj, hfac]
      · intro eNew st2 al2 hfac
        unfold Entries.get_or_insert
        rw [hgrow]
        simp only [hprobe, hposj, hfac]
    · exact absurd hprobe (by
        rw [show en1.capacity = en1.mask + 1 from rfl,
          land_start_eq_probeIdx_zero hk]
        exact probe_no_diverge hk hInv1.1 (inv_occ_lt hInv1) _ hash)

/-- Storing a correctly keyed factory entry in the empty probed slot
re-establishes the invariant and extends the stored set by the entry. -/
theorem insert_result_inv {en1 : Entries} (hInv1 : en1.Inv)
    (hgl : 0 < en1.growth_left) {hash : Nat} {s : String} {j : Nat}
    (hj : j < en1.mask + 1)
    (hnone : slotAt en1.data (probeIdx en1.mask hash j) = none)
    (hocc : ∀ l, l < j → ∃ e', slotAt en1.data (probeIdx en1.mask hash l) = some e' ∧
      isMatchB hash s e' = false)
    (hnomatch : ¬ hasMatch en1.data hash s)
    {eNew : Entry} (hh : eNew.hash = hash) (hs : eNew.str = s) :
    Entries.Inv { data := en1.data.set (probeIdx en1.mask hash j) (some eNew),
                  growth_left := en1.growth_left - 1, mask := en1.mask } ∧
    (∀ x, memT (en1.data.set (probeIdx en1.mask hash j) (some eNew)) x ↔
      x = eNew ∨ memT en1.data x) ∧
    occount (en1.data.set (probeIdx en1.mask hash j) (some eNew)) =
      occount en1.data + 1 := by
  obtain ⟨k, hk⟩ := inv_capacity_pow hInv1
  obtain ⟨hlen, hcap, hcnt, hre, hnd⟩ := hInv1
  have hnokey : ¬ hasMatch en1.data eNew.hash eNew.str := by
    rw [hh, hs]; exact hnomatch
  have hins := insert_spec hk hlen hre hnd eNew (j := j) hj
    (by rw [hh]; exact hnone)
    (by
      intro l hl
      obtain ⟨e', hsl, _⟩ := hocc l hl
      rw [hh, hsl]
      rfl)
    hnokey
  rw [hh] at hins
  obtain ⟨hlen', hre', hnd', hocc', hmem'⟩ := hins
  refine ⟨⟨hlen', hcap, ?_, hre', hnd'⟩, hmem', hocc'⟩
  show en1.growth_left - 1 + occount (en1.data.set (probeIdx en1.mask hash j)
    (some eNew)) = (en1.mask + 1) / 4 * 3
  rw [hocc']
  omega

/-! ## Arena lemmas -/

theorem roundDown_le (n : Nat) : roundDown n 8 ≤ n := by
  unfold roundDown
  omega

theorem roundDown_mono {a b : Nat} (h : a ≤ b) : roundDown a 8 ≤ roundDown b 8 := by
  unfold roundDown
  omega

theorem roundDown_aligned {a : Nat} (h : a % 8 = 0) : roundDown a 8 = a := by
  unfold roundDown
  omega


/-- A chunk with enough room between `low + 16` and the cursor serves the
allocation: the alignment rounding cannot push the record below the header
space.  This is the interesting boundary fact behind claim C9. -/
theorem try_alloc_str_fits {c : Chunk} (hal : c.low % 8 = 0) (hash : Nat)
    {s : String} (hfit : c.low + s.length + 16 ≤ c.cur) :
    c.try_alloc_str hash s = .ok
      { addr := roundDown (c.cur - s.length) 8 - 8, hash := hash, str := s }
      { c with
        cur := roundDown (c.cur - s.length) 8 - 16,
        recs := Entry.mk (roundDown (c.cur - s.length) 8 - 8) hash s :: c.recs } ∧
    c.low ≤ roundDown (c.cur - s.length) 8 - 16 := by
  have hlow16 : roundDown (c.low + 16) 8 = c.low + 16 :=
    roundDown_aligned (by omega)
  have hge : c.low + 16 ≤ roundDown (c.cur - s.length) 8 := by
    calc c.low + 16 = roundDown (c.low + 16) 8 := hlow16.symm
      _ ≤ roundDown (c.cur - s.length) 8 := roundDown_mono (by omega)
  constructor
  · simp only [Chunk.try_alloc_str, ALLOC_ALIGNMENT]
    rw [if_neg (by omega), if_neg (by omega)]
  · omega

/-- Existential form of `try_alloc_str_fits`. -/
theorem try_alloc_str_fits_ex {c : Chunk} (hal : c.low % 8 = 0) (hash : Nat)
    {s : String} (hfit : c.low + s.length + 16 ≤ c.cur) :
    ∃ e c', c.try_alloc_str hash s = .ok e c' ∧ e.hash = hash ∧ e.str = s ∧
      c'.low = c.low ∧ c'.size = c.size ∧ c'.recs = e :: c.recs ∧
      c.low ≤ c'.cur := by
  obtain ⟨h1, h2⟩ := try_alloc_str_fits hal hash hfit
  exact ⟨_, _, h1, rfl, rfl, rfl, rfl, rfl, h2⟩

/-- Case analysis of `Chunk::try_new_with_size` below the overflow bound:
either a fresh well-placed chunk, or an allocator failure ("oom"). -/
theorem try_new_cases (al : AllocSt) {z : Nat} (hsz : z + 7 < USIZE) :
    (∃ nc al2, Chunk.try_new_with_size al z = (.ok nc, al2) ∧
      nc.low = al.next ∧ z ≤ nc.size ∧
      nc.cur = nc.low + nc.size - 32 ∧ nc.recs = [] ∧
      (al.WF → al2.WF) ∧ (al.NoFail → al2.NoFail) ∧
      al2.next % 8 = al.next % 8 ∧ al.next ≤ al2.next) ∨
    (∃ al2, Chunk.try_new_with_size al z = (.error .oom, al2) ∧
      (al.WF → al2.WF) ∧ (al.NoFail → al2.NoFail) ∧
      al.failAt al.count = true) := by
  by_cases hf : al.failAt al.count = true
  · refine Or.inr ⟨{ al with count := al.count + 1 }, ?_, fun h => h, fun h => h,
      hf⟩
    unfold Chunk.try_new_with_size roundUp ALLOC_ALIGNMENT AllocSt.allocate
    rw [if_pos (by omega)]
    simp [hf]
  · refine Or.inl ⟨{ low := al.next,
                     size := z + 7 - (z + 7) % 8,
                     cur := al.next + (z + 7 - (z + 7) % 8) - 32,
                     recs := [] },
      { next := al.next + (z + 7 - (z + 7) % 8 + 7) -
                  (z + 7 - (z + 7) % 8 + 7) % 8,
        failAt := al.failAt,
        count := al.count + 1 },
      ?_, rfl, by simp; omega, rfl, rfl, ?_, fun h => h, ?_, ?_⟩
    · unfold Chunk.try_new_with_size roundUp ALLOC_ALIGNMENT AllocSt.allocate
        SIZE_OF_CHUNK
      rw [if_pos (by omega)]
      simp [hf]
    · rintro ⟨ha, hb⟩
      exact ⟨by simp; omega, by simp; omega⟩
    · simp
      omega
    · simp
      omega

theorem needed_bytes_eq {s : String} (hlen : s.length < 2 ^ 31) :
    Chunk.needed_bytes_for_string s.length = some (s.length + 16) := by
  unfold Chunk.needed_bytes_for_string USIZE
  rw [if_pos (by omega)]

/-- The slow path of `Arena::alloc_str` with a working allocator: a fresh
chunk is created (dedicated when oversized, default-sized otherwise), the
record is written into it — the post-creation allocation cannot fail — and
exactly one record is added to the chain. -/
theorem slow_path_ok {a : Arena} {al : AllocSt} (hwf : a.WFa) (hal : al.WF)
    (hnf : al.NoFail) (hash : Nat) {s : String} (hlen : s.length < 2 ^ 31) :
    ∃ e a' al', a.try_alloc_str_slow_path al hash s = (.ok e, a', al') ∧
      e.hash = hash ∧ e.str = s ∧ a'.WFa ∧ al'.WF ∧ al'.NoFail ∧
      a'.recCount = a.recCount + 1 := by
  unfold Arena.try_alloc_str_slow_path
  simp only [needed_bytes_eq hlen]
  by_cases hbig : Chunk.is_exceed_default_capacity (s.length + 16) = true
  · -- oversized: dedicated chunk
    rw [if_pos hbig, if_pos (show s.length + 16 + SIZE_OF_CHUNK < USIZE by
      unfold SIZE_OF_CHUNK USIZE; omega)]
    rcases try_new_cases al (z := s.length + 16 + SIZE_OF_CHUNK)
        (by unfold SIZE_OF_CHUNK USIZE; omega) with
      ⟨nc, al2, hnew, hlow, hsz2, hcur, hrecs, hwf2, hnf2, _, _⟩ |
      ⟨al2, hnew, _, _, hfail⟩
    · obtain ⟨e1, nc', hok, he1h, he1s, hlow2, hsz3, hrecs2, hcur2⟩ :=
        try_alloc_str_fits_ex (c := nc) (by rw [hlow]; exact hal.1) hash (s := s)
          (by
            rw [hcur, hlow]
            unfold SIZE_OF_CHUNK at hsz2
            omega)
      have hncwf : nc'.low % 8 = 0 ∧ 2 ^ 32 ≤ nc'.low ∧ nc'.low ≤ nc'.cur :=
        ⟨by rw [hlow2, hlow]; exact hal.1,
         by rw [hlow2, hlow]; exact hal.2,
         by rw [hlow2]; exact hcur2⟩
      rcases hchain : a.chain with _ | ⟨c, rest⟩
      · refine ⟨e1, ⟨[nc']⟩, al2, ?_, he1h, he1s, ?_, hwf2 hal, hnf2 hnf, ?_⟩
        · rw [hnew]
          simp only [hchain, hok]
        · intro c' hc'
          simp at hc'
          subst hc'
          exact hncwf
        · simp [Arena.recCount, hchain, hrecs2, hrecs]
      · by_cases husable : c.is_still_usable = true
        · refine ⟨e1, ⟨c :: nc' :: rest⟩, al2, ?_, he1h, he1s, ?_, hwf2 hal,
            hnf2 hnf, ?_⟩
          · rw [hnew]
            simp only [hchain, husable, if_true, hok]
          · intro c' hc'
            simp at hc'
            rcases hc' with hc' | hc' | hc'
            · rw [hc']
              exact hwf c (by rw [hchain]; exact List.mem_cons_self _ _)
            · rw [hc']
              exact hncwf
            · exact hwf c' (by rw [hchain]; exact List.mem_cons_of_mem _ hc')
          · simp [Arena.recCount, hchain, hrecs2, hrecs]
            omega
        · refine ⟨e1, ⟨nc' :: c :: rest⟩, al2, ?_, he1h, he1s, ?_, hwf2 hal,
            hnf2 hnf, ?_⟩
          · rw [hnew]
            simp only [hchain]
            rw [if_neg husable]
            simp only [hok]
          · intro c' hc'
            simp at hc'
            rcases hc' with hc' | hc' | hc'
            · rw [hc']
              exact hncwf
            · rw [hc']
              exact hwf c (by rw [hchain]; exact List.mem_cons_self _ _)
            · exact hwf c' (by rw [hchain]; exact List.mem_cons_of_mem _ hc')
          · simp [Arena.recCount, hchain, hrecs2, hrecs]
            omega
    · exact absurd (hnf al.count) (by rw [hfail]; simp)
  · -- within the default chunk budget
    rw [if_neg hbig]
    rcases try_new_cases al (z := CHUNK_DEFAULT_CAPACITY)
        (by unfold CHUNK_DEFAULT_CAPACITY USIZE; omega) with
      ⟨nc, al2, hnew, hlow, hsz2, hcur, hrecs, hwf2, hnf2, _, _⟩ |
      ⟨al2, hnew, _, _, hfail⟩
    · have hsmall : s.length + 16 ≤ 8160 := by
        unfold Chunk.is_exceed_default_capacity CHUNK_DEFAULT_CAPACITY
          SIZE_OF_CHUNK at hbig
        simp at hbig
        omega
      obtain ⟨e1, nc', hok, he1h, he1s, hlow2, hsz3, hrecs2, hcur2⟩ :=
        try_alloc_str_fits_ex (c := nc) (by rw [hlow]; exact hal.1) hash (s := s)
          (by
            rw [hcur, hlow]
            unfold CHUNK_DEFAULT_CAPACITY at hsz2
            omega)
      refine ⟨e1, ⟨nc' :: a.chain⟩, al2, ?_, he1h, he1s, ?_, hwf2 hal,
        hnf2 hnf, ?_⟩
      · rw [hnew]
        simp only [hok]
      · intro c' hc'
        simp at hc'
        rcases hc' with hc' | hc'
        · rw [hc']
          exact ⟨by rw [hlow2, hlow]; exact hal.1,
                 by rw [hlow2, hlow]; exact hal.2,
                 by rw [hlow2]; exact hcur2⟩
        · exact hwf c' hc'
      · simp [Arena.recCount, hrecs2, hrecs]
        omega
    · exact absurd (hnf al.count) (by rw [hfail]; simp)

theorem try_alloc_str_ok_inv {c : Chunk} {hash : Nat} {s : String} {e : Entry}
    {c' : Chunk} (h : c.try_alloc_str hash s = .ok e c') :
    e.hash = hash ∧ e.str = s ∧ c'.low = c.low ∧ c'.size = c.size ∧
    c'.recs = e :: c.recs ∧ c.low ≤ c'.cur := by
  simp only [Chunk.try_alloc_str] at h
  by_cases h1 : c.cur < s.length
  · rw [if_pos h1] at h
    exact absurd h (by simp)
  · rw [if_neg h1] at h
    by_cases h2 : roundDown (c.cur - s.length) ALLOC_ALIGNMENT < c.low + 16
    · rw [if_pos h2] at h
      exact absurd h (by simp)
    · rw [if_neg h2] at h
      injection h with he hc
      subst he
      subst hc
      refine ⟨rfl, rfl, rfl, rfl, rfl, ?_⟩
      show c.low ≤ roundDown (c.cur - s.length) ALLOC_ALIGNMENT - 16
      omega

theorem try_alloc_str_tooLarge_inv {c : Chunk} {hash : Nat} {s : String}
    (h : c.try_alloc_str hash s = .tooLarge) : c.cur < s.length := by
  simp only [Chunk.try_alloc_str] at h
  by_cases h1 : c.cur < s.length
  · exact h1
  · rw [if_neg h1] at h
    by_cases h2 : roundDown (c.cur - s.length) ALLOC_ALIGNMENT < c.low + 16
    · rw [if_pos h2] at h
      exact absurd h (by simp)
    · rw [if_neg h2] at h
      exact absurd h (by simp)

/-- Success of `Arena::alloc_str` with a working allocator: any string that
fits in memory is stored, with its hash and bytes, adding exactly one
record. -/
theorem alloc_str_ok {a : Arena} {al : AllocSt} (hwf : a.WFa) (hal : al.WF)
    (hnf : al.NoFail) (hash : Nat) {s : String} (hlen : s.length < 2 ^ 31) :
    ∃ e a' al', a.alloc_str al hash s = (.ok e, a', al') ∧
      e.hash = hash ∧ e.str = s ∧ a'.WFa ∧ al'.WF ∧ al'.NoFail ∧
      a'.recCount = a.recCount + 1 := by
  unfold Arena.alloc_str
  rcases hchain : a.chain with _ | ⟨c, rest⟩
  · simp only [hchain]
    rw [if_neg (by unfold DUMMY_CHUNK_ADDR; omega)]
    exact slow_path_ok hwf hal hnf hash hlen
  · have hcwf := hwf c (by rw [hchain]; exact List.mem_cons_self _ _)
    rcases htry : c.try_alloc_str hash s with _ | _ | ⟨e, c'⟩
    · exfalso
      have hcl := try_alloc_str_tooLarge_inv htry
      have h31 : (2 : Nat) ^ 31 ≤ 2 ^ 32 := by omega
      omega
    · simp only [hchain, htry]
      exact slow_path_ok hwf hal hnf hash hlen
    · simp only [hchain, htry]
      obtain ⟨he1h, he1s, hlow2, hsz3, hrecs2, hcur2⟩ := try_alloc_str_ok_inv htry
      refine ⟨e, ⟨c' :: rest⟩, al, rfl, he1h, he1s, ?_, hal, hnf, ?_⟩
      · intro c2 hc2
        simp at hc2
        rcases hc2 with hc2 | hc2
        · rw [hc2]
          exact ⟨by rw [hlow2]; exact hcwf.1, by rw [hlow2]; exact hcwf.2.1,
            by rw [hlow2]; exact hcur2⟩
        · exact hwf c2 (by rw [hchain]; exact List.mem_cons_of_mem _ hc2)
      · simp [Arena.recCount, hchain, hrecs2]
        omega

/-- Failure of `Arena::alloc_str` for strings of ordinary length: the only
failing path is the allocator refusing a chunk ("oom"), and it fails before
the chain is touched. -/
theorem alloc_str_err {a : Arena} {al : AllocSt} (hwf : a.WFa) (hal : al.WF)
    (hash : Nat) {s : String} (hlen : s.length < 2 ^ 31) {err : Err}
    {a' : Arena} {al' : AllocSt}
    (h : a.alloc_str al hash s = (.error err, a', al')) :
    err = .oom ∧ a' = a := by
  have hslow : ∀ a2 al2, a.try_alloc_str_slow_path al hash s =
      (.error err, a2, al2) → err = .oom ∧ a2 = a := by
    intro a2 al2 h2
    unfold Arena.try_alloc_str_slow_path at h2
    simp only [needed_bytes_eq hlen] at h2
    by_cases hbig : Chunk.is_exceed_default_capacity (s.length + 16) = true
    · rw [if_pos hbig, if_pos (show s.length + 16 + SIZE_OF_CHUNK < USIZE by
        unfold SIZE_OF_CHUNK USIZE; omega)] at h2
      rcases try_new_cases al (z := s.length + 16 + SIZE_OF_CHUNK)
          (by unfold SIZE_OF_CHUNK USIZE; omega) with
        ⟨nc, al2b, hnew, hlow, hsz2, hcur, hrecs, _, _, _, _⟩ |
        ⟨al2b, hnew, _, _, _⟩
      · obtain ⟨e1, nc', hok, _, _, _, _, _, _⟩ :=
          try_alloc_str_fits_ex (c := nc) (by rw [hlow]; exact hal.1) hash
            (s := s)
            (by
              rw [hcur, hlow]
              unfold SIZE_OF_CHUNK at hsz2
              omega)
        rcases hchain : a.chain with _ | ⟨c, rest⟩
        · simp [hnew, hchain, hok] at h2
        · by_cases husable : c.is_still_usable = true
          · simp [hnew, hchain, husable, hok] at h2
          · simp only [hnew, hchain] at h2
            rw [if_neg husable] at h2
            simp [hok] at h2
      · simp only [hnew] at h2
        simp at h2
        exact ⟨h2.1.symm, h2.2.1.symm⟩
    · rw [if_neg hbig] at h2
      rcases try_new_cases al (z := CHUNK_DEFAULT_CAPACITY)
          (by unfold CHUNK_DEFAULT_CAPACITY USIZE; omega) with
        ⟨nc, al2b, hnew, hlow, hsz2, hcur, hrecs, _, _, _, _⟩ |
        ⟨al2b, hnew, _, _, _⟩
      · have hsmall : s.length + 16 ≤ 8160 := by
          unfold Chunk.is_exceed_default_capacity CHUNK_DEFAULT_CAPACITY
            SIZE_OF_CHUNK at hbig
          simp at hbig
          omega
        obtain ⟨e1, nc', hok, _, _, _, _, _, _⟩ :=
          try_alloc_str_fits_ex (c := nc) (by rw [hlow]; exact hal.1) hash
            (s := s)
            (by
              rw [hcur, hlow]
              unfold CHUNK_DEFAULT_CAPACITY at hsz2
              omega)
        simp [hnew, hok] at h2
      · simp only [hnew] at h2
        simp at h2
        exact ⟨h2.1.symm, h2.2.1.symm⟩
  unfold Arena.alloc_str at h
  rcases hchain : a.chain with _ | ⟨c, rest⟩
  · simp only [hchain] at h
    rw [if_neg (by unfold DUMMY_CHUNK_ADDR; omega)] at h
    exact hslow _ _ h
  · have hcwf := hwf c (by rw [hchain]; exact List.mem_cons_self _ _)
    rcases htry : c.try_alloc_str hash s with _ | _ | ⟨e, c'⟩
    · exfalso
      have hcl := try_alloc_str_tooLarge_inv htry
      have h31 : (2 : Nat) ^ 31 ≤ 2 ^ 32 := by omega
      omega
    · simp only [hchain, htry] at h
      exact hslow _ _ h
    · simp only [hchain, htry] at h
      simp at h

/-! ## Repository-level machinery -/




theorem wfr_new : Repository.new.WFr := by
  intro i _
  constructor
  · exact inv_new
  · intro c hc
    simp [Repository.new, Bucket.new, Arena.new] at hc
theorem countOk_new : Repository.new.CountOk := by
  intro i _
  rfl

theorem determine_bucket_lt (f : String → Nat) (s : String) :
    Repository.determine_bucket (Repository.get_hash f s) < BUCKET_NUMBER := by
  unfold Repository.determine_bucket Repository.get_hash
  rw [Nat.shiftRight_eq_div_pow]
  have hm : f s % USIZE < 2 ^ 64 := Nat.mod_lt _ (by unfold USIZE; omega)
  have h1 : BUCKET_NUMBER = 64 := by decide
  have h2 : BUCKET_RSHIFT = 58 := by decide
  rw [h1, h2]
  omega

theorem sum_update (g : Nat → Nat) (n i : Nat) (hi : i < n) (v : Nat) :
    ((List.range n).map (fun j => if j = i then v else g j)).sum + g i =
    ((List.range n).map g).sum + v := by
  induction n with
  | zero => omega
  | succ n ih =>
    rw [List.range_succ, List.map_append, List.map_append, List.sum_append,
      List.sum_append]
    by_cases hin : i = n
    · subst hin
      have hmap : (List.range i).map (fun j => if j = i then v else g j) =
          (List.range i).map g := by
        apply List.map_congr_left
        intro j hj
        rw [if_neg (by simp at hj; omega)]
      rw [hmap]
      simp
      omega
    · have hlt : i < n := by omega
      have := ih hlt
      have hni : ¬ (n = i) := fun hh => hin hh.symm
      simp only [List.map_cons, List.map_nil, List.sum_cons, List.sum_nil,
        if_neg hni] at *
      omega

theorem recCount_congr {r1 r2 : Repository}
    (h : ∀ i, i < BUCKET_NUMBER → (r1.buckets i).arena = (r2.buckets i).arena) :
    r1.recCount = r2.recCount := by
  unfold Repository.recCount
  congr 1
  apply List.map_congr_left
  intro i hi
  rw [h i (by simpa using hi)]

/-- Full specification of one interning call (`Repository::get_or_insert`
under its shard lock) from a well-formed store with a working allocator:
the call returns a handle carrying exactly the string and its hash; a
string already present returns its stored handle without touching any
arena and without invoking the factory; a new string invokes the factory
once, creating exactly one record; in both cases well-formedness is
preserved, the interned string becomes (stays) findable, and no other
string's lookup changes. -/
theorem intern_spec (f : String → Nat) (r : Repository) (al : AllocSt)
    (s : String) (hwf : r.WFr) (hcnt : r.CountOk) (hal : al.WF)
    (hnf : al.NoFail) (hlen : s.length < 2 ^ 31) :
    ∃ e r' al' fl, Repository.get_or_insert f r al s = ⟨.ok e, r', al', fl⟩ ∧
      e.str = s ∧ e.hash = Repository.get_hash f s ∧
      r'.WFr ∧ r'.CountOk ∧ al'.WF ∧ al'.NoFail ∧
      Repository.lookup f r' s = some e ∧
      (∀ t, t ≠ s → Repository.lookup f r' t = Repository.lookup f r t) ∧
      (∀ e0, Repository.lookup f r s = some e0 → e = e0 ∧ fl = false ∧
        (∀ i, (r'.buckets i).arena = (r.buckets i).arena) ∧
        r'.recCount = r.recCount) ∧
      (Repository.lookup f r s = none → fl = true ∧
        r'.recCount = r.recCount + 1) := by
  have hi : Repository.determine_bucket (Repository.get_hash f s) <
      BUCKET_NUMBER := determine_bucket_lt f s
  obtain ⟨hbInv, hbWfa⟩ :=
    hwf (Repository.determine_bucket (Repository.get_hash f s)) hi
  obtain ⟨en1, al1, hInv1, hgl1, hnf1, hwf1, hmem1, hocc1, hhit, hmiss⟩ :=
    get_or_insert_spec
      (r.buckets (Repository.determine_bucket (Repository.get_hash f s))).entries
      (Repository.get_hash f s) s
      (fun ar al2 => Arena.alloc_str ar al2 (Repository.get_hash f s) s)
      (r.buckets (Repository.determine_bucket (Repository.get_hash f s))).arena
      al hbInv hnf
  cases hl : Repository.lookup f r s with
  | some e0 =>
    have hl' : lookupB
        (r.buckets (Repository.determine_bucket (Repository.get_hash f s))).entries
        (Repository.get_hash f s) s = some e0 := hl
    obtain ⟨hmem0, hh0, hs0⟩ := (lookupB_some_iff hbInv).mp hl'
    have hbeq := hhit e0 hl'
    have hrepo : Repository.get_or_insert f r al s =
        ⟨.ok e0,
         ⟨fun j => if j = Repository.determine_bucket (Repository.get_hash f s)
            then ⟨(r.buckets (Repository.determine_bucket
              (Repository.get_hash f s))).arena, en1⟩
            else r.buckets j⟩, al1, false⟩ := by
      unfold Repository.get_or_insert Bucket.get_or_insert
      simp only [hbeq]
    refine ⟨e0, _, al1, false, hrepo, hs0, hh0, ?_, ?_, hwf1 hal, hnf1, ?_, ?_,
      ?_, ?_⟩
    · -- WFr
      intro j hj
      by_cases hji : j = Repository.determine_bucket (Repository.get_hash f s)
      · subst hji
        simp only [if_pos rfl]
        exact ⟨hInv1, hbWfa⟩
      · simp only [if_neg hji]
        exact hwf j hj
    · -- CountOk
      intro j hj
      by_cases hji : j = Repository.determine_bucket (Repository.get_hash f s)
      · subst hji
        simp only [if_pos rfl]
        show (r.buckets _).arena.recCount = occount en1.data
        rw [hocc1]
        exact hcnt _ hi
      · simp only [if_neg hji]
        exact hcnt j hj
    · -- lookup of s afterwards
      unfold Repository.lookup
      simp only [if_pos rfl]
      show lookupB en1 (Repository.get_hash f s) s = some e0
      rw [lookupB_congr hbInv hInv1 hmem1, hl']
    · -- other lookups unchanged
      intro t _
      unfold Repository.lookup
      by_cases hti : Repository.determine_bucket (Repository.get_hash f t) =
          Repository.determine_bucket (Repository.get_hash f s)
      · rw [hti]
        simp only [if_pos rfl]
        show lookupB en1 (Repository.get_hash f t) t = _
        rw [lookupB_congr hbInv hInv1 hmem1]
      · simp only [if_neg hti]
    · -- hit clause
      intro e1 he1
      injection he1 with he1
      refine ⟨he1, rfl, ?_, ?_⟩
      · intro j
        by_cases hji : j = Repository.determine_bucket (Repository.get_hash f s)
        · subst hji
          simp
        · simp only [if_neg hji]
      · apply recCount_congr
        intro j _
        by_cases hji : j = Repository.determine_bucket (Repository.get_hash f s)
        · subst hji
          simp
        · simp only [if_neg hji]
    · -- miss clause vacuous
      intro habs
      exact absurd habs (by simp)
  | none =>
    have hl' : lookupB
        (r.buckets (Repository.determine_bucket (Repository.get_hash f s))).entries
        (Repository.get_hash f s) s = none := hl
    obtain ⟨j, hjlt, hnone, hbefore, herr, hok⟩ := hmiss hl'
    obtain ⟨eNew, ar2, al2, hfac, heh, hes, hwfa2, hal2, hnf2, hrec2⟩ :=
      alloc_str_ok hbWfa (hwf1 hal) hnf1 (Repository.get_hash f s) hlen
    have hbeq := hok eNew ar2 al2 hfac
    have hnomatch : ¬ hasMatch en1.data (Repository.get_hash f s) s := by
      have hno := (lookupB_none_iff hbInv).mp hl'
      intro habs
      obtain ⟨x, hx, hxh, hxs⟩ := hasMatch_iff.mp habs
      exact hno (hasMatch_iff.mpr ⟨x, (hmem1 x).mp hx, hxh, hxs⟩)
    obtain ⟨hInv2, hmem2, hocc2⟩ := insert_result_inv hInv1 hgl1 hjlt hnone
      hbefore hnomatch heh hes
    have hrepo : Repository.get_or_insert f r al s =
        ⟨.ok eNew,
         ⟨fun j2 => if j2 = Repository.determine_bucket (Repository.get_hash f s)
            then ⟨ar2,
              { data := en1.data.set
                  (probeIdx en1.mask (Repository.get_hash f s) j) (some eNew),
                growth_left := en1.growth_left - 1,
                mask := en1.mask }⟩
            else r.buckets j2⟩, al2, true⟩ := by
      unfold Repository.get_or_insert Bucket.get_or_insert
      simp only [hbeq]
    refine ⟨eNew, _, al2, true, hrepo, hes, heh, ?_, ?_, hal2, hnf2, ?_, ?_,
      ?_, ?_⟩
    · -- WFr
      intro j2 hj2
      by_cases hji : j2 = Repository.determine_bucket (Repository.get_hash f s)
      · subst hji
        simp only [if_pos rfl]
        exact ⟨hInv2, hwfa2⟩
      · simp only [if_neg hji]
        exact hwf j2 hj2
    · -- CountOk
      intro j2 hj2
      by_cases hji : j2 = Repository.determine_bucket (Repository.get_hash f s)
      · subst hji
        simp only [if_pos rfl]
        show ar2.recCount = occount (en1.data.set
          (probeIdx en1.mask (Repository.get_hash f s) j) (some eNew))
        rw [hocc2, hrec2, hocc1]
        rw [hcnt _ hi]
      · simp only [if_neg hji]
        exact hcnt j2 hj2
    · -- lookup of s afterwards
      unfold Repository.lookup
      simp only [if_pos rfl]
      exact (lookupB_some_iff hInv2).mpr ⟨(hmem2 eNew).mpr (Or.inl rfl), heh, hes⟩
    · -- other lookups unchanged
      intro t hts
      unfold Repository.lookup
      by_cases hti : Repository.determine_bucket (Repository.get_hash f t) =
          Repository.determine_bucket (Repository.get_hash f s)
      · rw [hti]
        simp only [if_pos rfl]
        cases hlt : lookupB
            (r.buckets (Repository.determine_bucket (Repository.get_hash f s))).entries
            (Repository.get_hash f t) t with
        | some et =>
          obtain ⟨hmemt, hth, hts2⟩ := (lookupB_some_iff hbInv).mp hlt
          exact (lookupB_some_iff hInv2).mpr
            ⟨(hmem2 et).mpr (Or.inr ((hmem1 et).mpr hmemt)), hth, hts2⟩
        | none =>
          have hno := (lookupB_none_iff hbInv).mp hlt
          refine (lookupB_none_iff hInv2).mpr ?_
          intro habs
          obtain ⟨x, hx, hxh, hxs⟩ := hasMatch_iff.mp habs
          rcases (hmem2 x).mp hx with hx2 | hx2
          · subst hx2
            exact hts (by rw [← hxs, hes])
          · exact hno (hasMatch_iff.mpr ⟨x, (hmem1 x).mp hx2, hxh, hxs⟩)
      · simp only [if_neg hti]
    · -- hit clause vacuous
      intro e1 he1
      exact absurd he1 (by simp)
    · -- miss clause
      intro _
      refine ⟨rfl, ?_⟩
      show Repository.recCount _ = Repository.recCount r + 1
      unfold Repository.recCount
      have hsum := sum_update
        (fun j2 => (r.buckets j2).arena.recCount) BUCKET_NUMBER
        (Repository.determine_bucket (Repository.get_hash f s)) hi
        ar2.recCount
      have happ : ((List.range BUCKET_NUMBER).map (fun j2 =>
          (if j2 = Repository.determine_bucket (Repository.get_hash f s)
            then (⟨ar2,
              { data := en1.data.set
                  (probeIdx en1.mask (Repository.get_hash f s) j) (some eNew),
                growth_left := en1.growth_left - 1,
                mask := en1.mask }⟩ : Bucket)
            else r.buckets j2).arena.recCount)).sum =
          ((List.range BUCKET_NUMBER).map (fun j2 =>
          if j2 = Repository.determine_bucket (Repository.get_hash f s)
            then ar2.recCount
            else (r.buckets j2).arena.recCount)).sum := by
        congr 1
        apply List.map_congr_left
        intro j2 _
        by_cases hji : j2 = Repository.determine_bucket (Repository.get_hash f s)
        · simp only [if_pos hji]
        · simp only [if_neg hji]
      rw [happ]
      have hv := hrec2
      omega

/-! ## Error paths -/

/-- A failing `Entries::grow` is the allocator refusing the new table; the
"oom" panic is raised before the table is touched. -/
theorem grow_err {en : Entries} (hInv : en.Inv) (hgl : en.growth_left = 0)
    {al al' : AllocSt} {err : Err} (h : en.grow al = (.error err, al')) :
    err = .oom := by
  by_cases hf : al.failAt al.count = true
  · unfold Entries.grow AllocSt.allocate at h
    simp [hf] at h
    exact h.1.symm
  · obtain ⟨en2, al2, hgrow, _⟩ := grow_spec hInv hgl (by simpa using hf)
    rw [hgrow] at h
    simp at h

/-- Error analysis of `Entries::get_or_insert` without assuming the
allocator succeeds: a failing call reports the growth's or the factory's
allocation failure, leaves the factory state where the factory left it
(unchanged, for an atomic factory), and the table afterwards — though
possibly grown — holds exactly the entries it held before. -/
theorem goi_err_spec {σ : Type} (en : Entries) (hash : Nat) (s : String)
    (factory : σ → AllocSt → Except Err Entry × σ × AllocSt) (st : σ)
    (al : AllocSt) (hInv : en.Inv) (hal : al.WF)
    (hfac : ∀ al1 er st2 al2, al1.WF →
      factory st al1 = (.error er, st2, al2) → er = .oom ∧ st2 = st)
    {err : Err} {en' : Entries} {st' : σ} {al' : AllocSt} {fl : Bool}
    (h : en.get_or_insert hash s factory st al = ⟨.error err, en', st', al', fl⟩) :
    err = .oom ∧ st' = st ∧ en'.Inv ∧
      (∀ x, memT en'.data x ↔ memT en.data x) ∧
      occount en'.data = occount en.data := by
  unfold Entries.get_or_insert at h
  rcases hgrown : (if en.growth_left = 0 then en.grow al else (Except.ok en, al))
    with ⟨eg | en1, alg⟩
  · -- the growth itself failed
    simp only [hgrown] at h
    simp only [GoiOut.mk.injEq] at h
    obtain ⟨he, hen, hst, _, _⟩ := h
    by_cases hgl : en.growth_left = 0
    · rw [if_pos hgl] at hgrown
      have hoom := grow_err hInv hgl hgrown
      simp at he
      exact ⟨by rw [← he, hoom], hst.symm, by rw [← hen]; exact hInv,
        by rw [← hen]; exact fun x => Iff.rfl, by rw [← hen]⟩
    · rw [if_neg hgl] at hgrown
      simp at hgrown
  · -- the growth (or the no-growth path) delivered a table
    obtain ⟨hInv1, hmem1, hocc1, halg⟩ : en1.Inv ∧
        (∀ x, memT en1.data x ↔ memT en.data x) ∧
        occount en1.data = occount en.data ∧ alg.WF := by
      by_cases hgl : en.growth_left = 0
      · rw [if_pos hgl] at hgrown
        by_cases hf : al.failAt al.count = true
        · exfalso
          unfold Entries.grow AllocSt.allocate at hgrown
          simp [hf] at hgrown
        · obtain ⟨en2, al2, hgrow2, hInv2, _, _, hocc2, hmem2, hal2⟩ :=
            grow_spec hInv hgl (by simpa using hf)
          rw [hgrow2] at hgrown
          simp at hgrown
          obtain ⟨h1, h2⟩ := hgrown
          rw [← h1, ← h2]
          exact ⟨hInv2, hmem2, hocc2, by rw [hal2]; exact allocate_WF hal _⟩
      · rw [if_neg hgl] at hgrown
        simp at hgrown
        obtain ⟨h1, h2⟩ := hgrown
        rw [← h1, ← h2]
        exact ⟨hInv, fun x => Iff.rfl, rfl, hal⟩
    simp only [hgrown] at h
    rcases hprobe : probeLoop en1.data en1.mask (isMatchB hash s)
        (Nat.land en1.mask hash) 0 en1.capacity with e0 | pos | _
    · simp only [hprobe] at h
      simp at h
    · simp only [hprobe] at h
      rcases hfacr : factory st alg with ⟨er | eN, st2, al2f⟩
      · simp only [hfacr] at h
        simp only [GoiOut.mk.injEq] at h
        obtain ⟨he, hen, hst, _, _⟩ := h
        simp at he
        obtain ⟨hoom, hst2⟩ := hfac alg er st2 al2f halg hfacr
        refine ⟨he.symm.trans hoom, hst.symm.trans hst2, ?_, ?_, ?_⟩
        · rw [← hen]; exact hInv1
        · rw [← hen]; exact hmem1
        · rw [← hen]; exact hocc1
      · simp only [hfacr] at h
        simp at h
    · exfalso
      obtain ⟨k, hk⟩ := inv_capacity_pow hInv1
      refine absurd hprobe ?_
      rw [show en1.capacity = en1.mask + 1 from rfl,
        land_start_eq_probeIdx_zero hk]
      exact probe_no_diverge hk hInv1.1 (inv_occ_lt hInv1) _ hash

/-- Error analysis of one interning call on a well-formed store: a failing
`Repository::get_or_insert` reports out-of-memory, leaves every arena chain
exactly as it was, changes no lookup and no record count, and keeps the
store well-formed — but the routed bucket's index may have grown. -/
theorem intern_err_spec (f : String → Nat) (r : Repository) (al : AllocSt)
    (s : String) (hwf : r.WFr) (hcnt : r.CountOk) (hal : al.WF)
    (hlen : s.length < 2 ^ 31)
    {err : Err} {r' : Repository} {al' : AllocSt} {fl : Bool}
    (h : Repository.get_or_insert f r al s = ⟨.error err, r', al', fl⟩) :
    err = .oom ∧
    (∀ i, (r'.buckets i).arena = (r.buckets i).arena) ∧
    (∀ t, Repository.lookup f r' t = Repository.lookup f r t) ∧
    r'.recCount = r.recCount ∧ r'.WFr ∧ r'.CountOk := by
  have hi : Repository.determine_bucket (Repository.get_hash f s) <
      BUCKET_NUMBER := determine_bucket_lt f s
  obtain ⟨hbInv, hbWfa⟩ :=
    hwf (Repository.determine_bucket (Repository.get_hash f s)) hi
  unfold Repository.get_or_insert Bucket.get_or_insert at h
  rcases hG : Entries.get_or_insert
      (r.buckets (Repository.determine_bucket (Repository.get_hash f s))).entries
      (Repository.get_hash f s) s
      (fun ar al2 => Arena.alloc_str ar al2 (Repository.get_hash f s) s)
      (r.buckets (Repository.determine_bucket (Repository.get_hash f s))).arena
      al with ⟨res, enG, stG, alG, flG⟩
  simp only [hG] at h
  simp only [InternOut.mk.injEq] at h
  obtain ⟨hres, hr', hal', hfl⟩ := h
  rw [hres] at hG
  obtain ⟨hoom, hstG, hInvG, hmemG, hoccG⟩ :=
    goi_err_spec _ _ _ _ _ _ hbInv hal
      (fun al1 er st2 al2 hal1 hfr =>
        alloc_str_err hbWfa hal1 (Repository.get_hash f s) hlen hfr) hG
  subst hr'
  refine ⟨hoom, ?_, ?_, ?_, ?_, ?_⟩
  · -- arenas unchanged
    intro j
    by_cases hji : j = Repository.determine_bucket (Repository.get_hash f s)
    · subst hji
      simp only [if_pos rfl]
      exact hstG
    · simp only [if_neg hji]
  · -- lookups unchanged
    intro t
    unfold Repository.lookup
    by_cases hti : Repository.determine_bucket (Repository.get_hash f t) =
        Repository.determine_bucket (Repository.get_hash f s)
    · rw [hti]
      simp only [if_pos rfl]
      show lookupB enG (Repository.get_hash f t) t = _
      rw [lookupB_congr hbInv hInvG hmemG]
    · simp only [if_neg hti]
  · -- record count unchanged
    apply recCount_congr
    intro j _
    by_cases hji : j = Repository.determine_bucket (Repository.get_hash f s)
    · subst hji
      simp only [if_pos rfl]
      exact hstG
    · simp only [if_neg hji]
  · -- well-formedness
    intro j hj
    by_cases hji : j = Repository.determine_bucket (Repository.get_hash f s)
    · subst hji
      simp only [if_pos rfl]
      exact ⟨hInvG, by rw [hstG]; exact hbWfa⟩
    · simp only [if_neg hji]
      exact hwf j hj
  · -- record counts per bucket
    intro j hj
    by_cases hji : j = Repository.determine_bucket (Repository.get_hash f s)
    · subst hji
      simp only [if_pos rfl]
      show stG.recCount = occount enG.data
      rw [hstG, hoccG]
      exact hcnt _ hi
    · simp only [if_neg hji]
      exact hcnt j hj

/-! ## A fresh store, and sequences of interning calls -/

/-- The probe of an empty one-slot table hits the dummy empty slot at once. -/
theorem lookupB_new (hash : Nat) (s : String) :
    lookupB Entries.new hash s = none := by
  unfold lookupB
  have h0 : Nat.land Entries.new.mask hash = 0 := by
    show Nat.land 0 hash = 0
    show 0 &&& hash = 0
    exact Nat.zero_and hash
  rw [h0]
  rfl

/-- A fresh `Repository` finds nothing. -/
theorem lookup_new (f : String → Nat) (t : String) :
    Repository.lookup f Repository.new t = none :=
  lookupB_new (Repository.get_hash f t) t

/-- A fresh `Repository` holds no records. -/
theorem recCount_new : Repository.new.recCount = 0 := by rfl


/-- Invariant of a sequentialized run: starting from a well-formed store
whose findable strings are exactly the finite set `S` (with one record
each), interning a list of strings succeeds throughout, ends with findable
set `S ∪ ops` and exactly one record per distinct string, never disturbs an
already stored handle, and hands every request a handle carrying its string
that is still stored at the end. -/
theorem internList_spec (f : String → Nat) (ops : List String) :
    ∀ (r : Repository) (al : AllocSt) (S : Finset String),
    r.WFr → r.CountOk → al.WF → al.NoFail →
    (∀ t, t ∈ ops → t.length < 2 ^ 31) →
    (∀ t, (Repository.lookup f r t).isSome = true ↔ t ∈ S) →
    r.recCount = S.card →
    (Repository.internList f r al ops).1.WFr ∧
    (Repository.internList f r al ops).1.CountOk ∧
    (Repository.internList f r al ops).2.1.WF ∧
    (Repository.internList f r al ops).2.1.NoFail ∧
    (∀ t, (Repository.lookup f (Repository.internList f r al ops).1 t).isSome = true ↔
      t ∈ S ∪ ops.toFinset) ∧
    (Repository.internList f r al ops).1.recCount = (S ∪ ops.toFinset).card ∧
    (∀ t e, Repository.lookup f r t = some e →
      Repository.lookup f (Repository.internList f r al ops).1 t = some e) ∧
    (∀ n, n < ops.length → ∃ e,
      (Repository.internList f r al ops).2.2.getD n (.error .oom) = .ok e ∧
      Repository.lookup f (Repository.internList f r al ops).1 (ops.getD n "") =
        some e ∧
      e.str = ops.getD n "" ∧
      e.hash = Repository.get_hash f (ops.getD n "")) := by
  induction ops with
  | nil =>
    intro r al S hwf hcnt hal hnf hlen hS hcard
    refine ⟨hwf, hcnt, hal, hnf, ?_, ?_, ?_, ?_⟩
    · intro t
      simpa using hS t
    · simpa using hcard
    · intro t e h
      exact h
    · intro n hn
      simp at hn
  | cons s rest ih =>
    intro r al S hwf hcnt hal hnf hlen hS hcard
    obtain ⟨e, r1, al1, fl, hrepo, hstr, hhash, hwf1, hcnt1, hal1, hnf1,
      hlook1, hpres1, hhit, hmiss⟩ :=
      intern_spec f r al s hwf hcnt hal hnf (hlen s (by simp))
    have hred : Repository.internList f r al (s :: rest) =
        ((Repository.internList f r1 al1 rest).1,
         (Repository.internList f r1 al1 rest).2.1,
         Except.ok e :: (Repository.internList f r1 al1 rest).2.2) := by
      simp only [Repository.internList, hrepo]
    have hS1 : ∀ t, (Repository.lookup f r1 t).isSome = true ↔ t ∈ insert s S := by
      intro t
      by_cases hts : t = s
      · subst hts
        rw [hlook1]
        simp
      · rw [hpres1 t hts, hS t]
        simp [hts]
    have hcard1 : r1.recCount = (insert s S).card := by
      by_cases hsS : s ∈ S
      · rcases hls : Repository.lookup f r s with _ | e0
        · have := (hS s).mpr hsS
          rw [hls] at this
          simp at this
        · obtain ⟨_, _, _, hrc⟩ := hhit e0 hls
          rw [hrc, hcard, Finset.insert_eq_self.mpr hsS]
      · rcases hls : Repository.lookup f r s with _ | e0
        · obtain ⟨_, hrc⟩ := hmiss hls
          rw [hrc, hcard, Finset.card_insert_of_not_mem hsS]
        · exact absurd ((hS s).mp (by rw [hls]; rfl)) hsS
    have hstab1 : ∀ t e2, Repository.lookup f r t = some e2 →
        Repository.lookup f r1 t = some e2 := by
      intro t e2 h2
      by_cases hts : t = s
      · subst hts
        obtain ⟨hee, _, _, _⟩ := hhit e2 h2
        rw [hlook1, hee]
      · rw [hpres1 t hts]
        exact h2
    obtain ⟨ihwf, ihcnt, ihal, ihnf, ihS, ihcard, ihstab, ihidx⟩ :=
      ih r1 al1 (insert s S) hwf1 hcnt1 hal1 hnf1
        (fun t ht => hlen t (by simp [ht])) hS1 hcard1
    rw [hred]
    have hsets : insert s S ∪ rest.toFinset = S ∪ (s :: rest).toFinset := by
      rw [List.toFinset_cons, Finset.insert_union, Finset.union_insert]
    refine ⟨ihwf, ihcnt, ihal, ihnf, ?_, ?_, ?_, ?_⟩
    · intro t
      rw [← hsets]
      exact ihS t
    · rw [← hsets]
      exact ihcard
    · intro t e2 h2
      exact ihstab t e2 (hstab1 t e2 h2)
    · intro n hn
      match n with
      | 0 =>
        exact ⟨e, rfl, ihstab s e hlook1, hstr, hhash⟩
      | Nat.succ m =>
        have hm : m < rest.length := by
          simpa using hn
        obtain ⟨e2, h1, h2, h3, h4⟩ := ihidx m hm
        exact ⟨e2, h1, h2, h3, h4⟩

/-! ## The claims -/




/-- C1.  Idempotence of interning: with a well-formed store and a working
allocator, interning `s` and then interning `s` again returns a handle with
the same hash, the same content, and equal identity comparison (the same
underlying entry); the second call does not invoke the record factory
(`invoked = false`) and does not allocate a new record (every arena chain,
and hence the record count, is unchanged). -/
theorem C1_idempotent (f : String → Nat) (r : Repository) (al : AllocSt)
    (s : String) (hwf : r.WFr) (hcnt : r.CountOk) (hal : al.WF)
    (hnf : al.NoFail) (hlen : s.length < 2 ^ 31) :
    ∃ e1 r1 al1 fl1 e2 r2 al2,
      Repository.get_or_insert f r al s = ⟨.ok e1, r1, al1, fl1⟩ ∧
      Repository.get_or_insert f r1 al1 s = ⟨.ok e2, r2, al2, false⟩ ∧
      e2.hash = e1.hash ∧ e2.as_str = e1.as_str ∧
      Entry.ptrEq e2 e1 = true ∧
      r2.recCount = r1.recCount ∧
      (∀ i, (r2.buckets i).arena = (r1.buckets i).arena) := by
  obtain ⟨e1, r1, al1, fl1, h1, hs1, hh1, hwf1, hcnt1, hal1, hnf1, hlook1,
    _, _, _⟩ := intern_spec f r al s hwf hcnt hal hnf hlen
  obtain ⟨e2, r2, al2, fl2, h2, _, _, _, _, _, _, _, _, hhit2, _⟩ :=
    intern_spec f r1 al1 s hwf1 hcnt1 hal1 hnf1 hlen
  obtain ⟨hee, hfl2, har, hrc⟩ := hhit2 e1 hlook1
  rw [hee, hfl2] at h2
  refine ⟨e1, r1, al1, fl1, e1, r2, al2, h1, h2, rfl, rfl, ?_, hrc, har⟩
  simp [Entry.ptrEq]

theorem C1_idempotent_witness :
    ∃ e1 r1 al1 fl1 e2 r2 al2,
      Repository.get_or_insert f0 Repository.new al0 "a" =
        ⟨.ok e1, r1, al1, fl1⟩ ∧
      Repository.get_or_insert f0 r1 al1 "a" = ⟨.ok e2, r2, al2, false⟩ ∧
      e2.hash = e1.hash ∧ e2.as_str = e1.as_str ∧
      Entry.ptrEq e2 e1 = true ∧
      r2.recCount = r1.recCount ∧
      (∀ i, (r2.buckets i).arena = (r1.buckets i).arena) :=
  C1_idempotent f0 Repository.new al0 "a" wfr_new countOk_new
    ⟨by decide, by decide⟩ (fun _ => rfl) (by decide)

/-- C2.  Index lookup/insert contract of `Entries::get_or_insert`: on a
well-formed table with a working allocator, the probe observation succeeds
exactly when some stored entry has both the given hash and the given
content (hash collisions are kept apart by the content tie-break); a hit
returns that stored handle without invoking the factory; a miss invokes
the factory exactly once and stores the produced handle in the first empty
probed slot, returning it. -/
theorem C2_index_contract {σ : Type} (en : Entries) (hash : Nat) (s : String)
    (factory : σ → AllocSt → Except Err Entry × σ × AllocSt) (st : σ)
    (al : AllocSt) (hInv : en.Inv) (hnf : al.NoFail) :
    ∃ en1 al1,
      (∀ x, memT en1.data x ↔ memT en.data x) ∧
      ((lookupB en hash s).isSome = true ↔ hasMatch en.data hash s) ∧
      (∀ e0, lookupB en hash s = some e0 →
        memT en.data e0 ∧ e0.hash = hash ∧ e0.str = s ∧
        en.get_or_insert hash s factory st al = ⟨.ok e0, en1, st, al1, false⟩) ∧
      (lookupB en hash s = none →
        ¬ hasMatch en.data hash s ∧
        ∃ j, j < en1.mask + 1 ∧
          slotAt en1.data (probeIdx en1.mask hash j) = none ∧
          (∀ l, l < j → ∃ e', slotAt en1.data (probeIdx en1.mask hash l) =
            some e' ∧ isMatchB hash s e' = false) ∧
          (∀ eNew st2 al2, factory st al1 = (.ok eNew, st2, al2) →
            en.get_or_insert hash s factory st al =
              ⟨.ok eNew,
               { data := en1.data.set (probeIdx en1.mask hash j) (some eNew),
                 growth_left := en1.growth_left - 1,
                 mask := en1.mask }, st2, al2, true⟩)) := by
  obtain ⟨en1, al1, hInv1, hgl1, _, _, hmem1, _, hhit, hmiss⟩ :=
    get_or_insert_spec en hash s factory st al hInv hnf
  refine ⟨en1, al1, hmem1, ?_, ?_, ?_⟩
  · constructor
    · intro h
      rcases hl : lookupB en hash s with _ | e0
      · rw [hl] at h
        simp at h
      · obtain ⟨hm, hh, hs⟩ := (lookupB_some_iff hInv).mp hl
        exact hasMatch_iff.mpr ⟨e0, hm, hh, hs⟩
    · intro h
      rcases hl : lookupB en hash s with _ | e0
      · exact absurd h ((lookupB_none_iff hInv).mp hl)
      · rfl
  · intro e0 hl
    obtain ⟨hm, hh, hs⟩ := (lookupB_some_iff hInv).mp hl
    exact ⟨hm, hh, hs, hhit e0 hl⟩
  · intro hl
    obtain ⟨j, hj, hnone, hbefore, _, hok⟩ := hmiss hl
    exact ⟨(lookupB_none_iff hInv).mp hl, j, hj, hnone, hbefore, hok⟩

theorem C2_index_contract_witness :
    ∃ en1 al1,
      (∀ x, memT en1.data x ↔ memT Entries.new.data x) ∧
      ((lookupB Entries.new 0 "a").isSome = true ↔
        hasMatch Entries.new.data 0 "a") ∧
      (∀ e0, lookupB Entries.new 0 "a" = some e0 →
        memT Entries.new.data e0 ∧ e0.hash = 0 ∧ e0.str = "a" ∧
        Entries.new.get_or_insert 0 "a"
          (fun st al => (.ok ⟨2 ^ 32, 0, "a"⟩, st, al)) () al0 =
          ⟨.ok e0, en1, (), al1, false⟩) ∧
      (lookupB Entries.new 0 "a" = none →
        ¬ hasMatch Entries.new.data 0 "a" ∧
        ∃ j, j < en1.mask + 1 ∧
          slotAt en1.data (probeIdx en1.mask 0 j) = none ∧
          (∀ l, l < j → ∃ e', slotAt en1.data (probeIdx en1.mask 0 l) =
            some e' ∧ isMatchB 0 "a" e' = false) ∧
          (∀ eNew st2 al2, (fun (st : Unit) al =>
              ((.ok ⟨2 ^ 32, 0, "a"⟩ : Except Err Entry), st, al)) () al1 =
              (.ok eNew, st2, al2) →
            Entries.new.get_or_insert 0 "a"
              (fun st al => (.ok ⟨2 ^ 32, 0, "a"⟩, st, al)) () al0 =
              ⟨.ok eNew,
               { data := en1.data.set (probeIdx en1.mask 0 j) (some eNew),
                 growth_left := en1.growth_left - 1,
                 mask := en1.mask }, st2, al2, true⟩)) :=
  C2_index_contract Entries.new 0 "a"
    (fun st al => (.ok ⟨2 ^ 32, 0, "a"⟩, st, al)) () al0 inv_new (fun _ => rfl)

/-- C5.  Index structural invariant, established by `Entries::new` and
preserved by `Entries::get_or_insert` (for a factory that keys its entry
correctly) and by `Entries::grow`: the capacity is always of the shape 1,
1024, 2048, ... (a power of two), `growth_left` equals capacity × 3/4
minus the occupied-slot count — after a rehash, new capacity × 3/4 minus
the previous occupant count — and the occupied fraction never exceeds
3/4. -/
theorem C5_index_invariant {σ : Type} :
    Entries.new.Inv ∧
    (∀ (en : Entries) (hash : Nat) (s : String)
      (factory : σ → AllocSt → Except Err Entry × σ × AllocSt) (st : σ)
      (al : AllocSt), en.Inv → al.NoFail →
      (∀ al1 e st2 al2, factory st al1 = (.ok e, st2, al2) →
        e.hash = hash ∧ e.str = s) →
      (en.get_or_insert hash s factory st al).entries.Inv) ∧
    (∀ (en : Entries) (al : AllocSt), en.Inv → en.growth_left = 0 →
      al.NoFail → ∃ en' al', en.grow al = (.ok en', al') ∧ en'.Inv ∧
        en'.mask + 1 = Entries.next_capacity (en.mask + 1) ∧
        en'.growth_left = Entries.max_item_count (en'.mask + 1) -
          occount en.data) ∧
    (∀ en : Entries, en.Inv → CapShape (en.mask + 1) ∧
      en.growth_left = (en.mask + 1) / 4 * 3 - occount en.data ∧
      4 * occount en.data ≤ 3 * (en.mask + 1)) := by
  refine ⟨inv_new, ?_, ?_, ?_⟩
  · intro en hash s factory st al hInv hnf hfac
    obtain ⟨en1, al1, hInv1, hgl1, _, _, hmem1, _, hhit, hmiss⟩ :=
      get_or_insert_spec en hash s factory st al hInv hnf
    rcases hl : lookupB en hash s with _ | e0
    · obtain ⟨j, hj, hnone, hbefore, herr, hok⟩ := hmiss hl
      rcases hfr : factory st al1 with ⟨er | eN, st2, al2⟩
      · rw [herr er st2 al2 hfr]
        exact hInv1
      · obtain ⟨hh, hs⟩ := hfac al1 eN st2 al2 hfr
        rw [hok eN st2 al2 hfr]
        have hnm : ¬ hasMatch en1.data hash s := by
          have hl1 : lookupB en1 hash s = none := by
            rw [lookupB_congr hInv hInv1 hmem1, hl]
          exact (lookupB_none_iff hInv1).mp hl1
        exact (insert_result_inv hInv1 hgl1 hj hnone hbefore hnm hh hs).1
    · rw [hhit e0 hl]
      exact hInv1
  · intro en al hInv hgl hnf
    obtain ⟨en', al', hgrow, hInv', hcap', hgl', _, _, _⟩ :=
      grow_spec hInv hgl (hnf al.count)
    exact ⟨en', al', hgrow, hInv', hcap', hgl'⟩
  · intro en hInv
    obtain ⟨hlen, hcap, hcnt, _, _⟩ := hInv
    exact ⟨hcap, by omega, by omega⟩

theorem C5_index_invariant_witness :
    (Entries.new.get_or_insert 0 "a"
      (fun (st : Unit) al => (.ok ⟨2 ^ 32, 0, "a"⟩, st, al)) ()
      al0).entries.Inv :=
  (C5_index_invariant (σ := Unit)).2.1 Entries.new 0 "a"
    (fun st al => (.ok ⟨2 ^ 32, 0, "a"⟩, st, al)) () al0 inv_new
    (fun _ => rfl)
    (fun al1 e st2 al2 h => by
      injection h with h1 h2
      injection h1 with h1
      rw [← h1]
      exact ⟨rfl, rfl⟩)

/-- C10.  Termination of probing: over a power-of-two table the triangular
probe sequence visits every slot within capacity steps; on a well-formed
table at least one slot is empty (the load factor stays at 3/4), so the
fueled probe loop of `Entries::get_or_insert` never exhausts its fuel —
it always reaches a matching entry or an empty slot — and the reinsertion
loop of `Entries::grow` never fails to place an occupant. -/
theorem C10_probe_termination :
    (∀ k mask hash p, mask + 1 = 2 ^ k → p < mask + 1 →
      ∃ j, j < mask + 1 ∧ probeIdx mask hash j = p) ∧
    (∀ en : Entries, en.Inv → occount en.data < en.mask + 1) ∧
    (∀ (en : Entries) (hash : Nat) (s : String), en.Inv →
      probeLoop en.data en.mask (isMatchB hash s) (Nat.land en.mask hash) 0
        en.capacity ≠ .diverge) ∧
    (∀ (en : Entries) (al : AllocSt), en.Inv → en.growth_left = 0 →
      ∀ al', en.grow al ≠ (.error .diverge, al')) := by
  refine ⟨?_, ?_, ?_, ?_⟩
  · intro k mask hash p hm hp
    exact probeIdx_cover hm hash hp
  · intro en hInv
    exact inv_occ_lt hInv
  · intro en hash s hInv
    obtain ⟨k, hk⟩ := inv_capacity_pow hInv
    rw [show en.capacity = en.mask + 1 from rfl,
      land_start_eq_probeIdx_zero hk]
    exact probe_no_diverge hk hInv.1 (inv_occ_lt hInv) _ hash
  · intro en al hInv hgl al' h
    simpa using grow_err hInv hgl h

theorem C10_probe_termination_witness :
    (∃ j, j < 1024 ∧ probeIdx 1023 5 j = 7) ∧
    probeLoop Entries.new.data Entries.new.mask (isMatchB 0 "a")
      (Nat.land Entries.new.mask 0) 0 Entries.new.capacity ≠ .diverge :=
  ⟨C10_probe_termination.1 10 1023 5 7 (by decide) (by decide),
   C10_probe_termination.2.2.1 Entries.new 0 "a" inv_new⟩

/-- C3.  Concurrent deduplication: each shard's mutex serializes the
interning calls, so a concurrent execution is observationally some
sequential list of requests (an arbitrary interleaving, overlaps
included).  Running any such list against a fresh store creates at most
one record per distinct string: the final record count across the store
equals the number of distinct strings interned, and exactly the interned
strings are findable. -/
theorem C3_concurrent_dedup (f : String → Nat) (ops : List String)
    (al : AllocSt) (hal : al.WF) (hnf : al.NoFail)
    (hlen : ∀ t, t ∈ ops → t.length < 2 ^ 31) :
    (Repository.internList f Repository.new al ops).1.recCount =
      ops.toFinset.card ∧
    (∀ t, (Repository.lookup f
        (Repository.internList f Repository.new al ops).1 t).isSome = true ↔
      t ∈ ops.toFinset) := by
  obtain ⟨_, _, _, _, hS, hcard, _, _⟩ :=
    internList_spec f ops Repository.new al ∅ wfr_new countOk_new hal hnf hlen
      (fun t => by rw [lookup_new]; simp)
      (by rw [recCount_new]; rfl)
  constructor
  · rw [hcard, Finset.empty_union]
  · intro t
    rw [hS t, Finset.empty_union]

theorem C3_concurrent_dedup_witness :
    (Repository.internList f0 Repository.new al0 ["a", "b", "a"]).1.recCount =
      (["a", "b", "a"] : List String).toFinset.card ∧
    (∀ t, (Repository.lookup f0
        (Repository.internList f0 Repository.new al0 ["a", "b", "a"]).1
        t).isSome = true ↔
      t ∈ (["a", "b", "a"] : List String).toFinset) :=
  C3_concurrent_dedup f0 ["a", "b", "a"] al0 ⟨by decide, by decide⟩
    (fun _ => rfl) (by decide)

/-- C4.  Growth preserves membership: `Entries::grow` (rehash with the
early stop) loses no stored entry and duplicates none — the grown table
holds exactly the old table's entries, with the same occupant count — and
after any run of insertions from a fresh store (so including runs whose
distinct-string count forces one or more growths), every previously
interned string is still found with its original handle, hash and content;
re-interning it returns that original handle without creating a record. -/
theorem C4_growth_preserves_membership (f : String → Nat) (ops : List String)
    (al : AllocSt) (hal : al.WF) (hnf : al.NoFail)
    (hlen : ∀ t, t ∈ ops → t.length < 2 ^ 31) :
    (∀ (en : Entries) (al2 : AllocSt), en.Inv → en.growth_left = 0 →
      al2.NoFail → ∃ en' al3, en.grow al2 = (.ok en', al3) ∧
        (∀ x, memT en'.data x ↔ memT en.data x) ∧
        occount en'.data = occount en.data) ∧
    (∀ n, n < ops.length → ∃ e r2 al2,
      (Repository.internList f Repository.new al ops).2.2.getD n
        (.error .oom) = .ok e ∧
      Repository.lookup f (Repository.internList f Repository.new al ops).1
        (ops.getD n "") = some e ∧
      e.str = ops.getD n "" ∧ e.hash = Repository.get_hash f (ops.getD n "") ∧
      Repository.get_or_insert f
        (Repository.internList f Repository.new al ops).1
        (Repository.internList f Repository.new al ops).2.1 (ops.getD n "") =
        ⟨.ok e, r2, al2, false⟩ ∧
      r2.recCount =
        (Repository.internList f Repository.new al ops).1.recCount) := by
  constructor
  · intro en al2 hInv hgl hnf2
    obtain ⟨en', al3, hgrow, _, _, _, hocc', hmem', _⟩ :=
      grow_spec hInv hgl (hnf2 al2.count)
    exact ⟨en', al3, hgrow, hmem', hocc'⟩
  · obtain ⟨hwfF, hcntF, halF, hnfF, _, _, _, hidx⟩ :=
      internList_spec f ops Repository.new al ∅ wfr_new countOk_new hal hnf
        hlen (fun t => by rw [lookup_new]; simp) (by rw [recCount_new]; rfl)
    intro n hn
    obtain ⟨e, hres, hlookF, hstr, hhash⟩ := hidx n hn
    obtain ⟨e2, r2, al2, fl2, h2, _, _, _, _, _, _, _, _, hhit2, _⟩ :=
      intern_spec f (Repository.internList f Repository.new al ops).1
        (Repository.internList f Repository.new al ops).2.1 (ops.getD n "")
        hwfF hcntF halF hnfF
        (by
          have hmem : ops.getD n "" ∈ ops := by
            rw [List.getD_eq_getElem ops "" hn]
            exact List.getElem_mem hn
          exact hlen _ hmem)
    obtain ⟨hee, hfl2, _, hrc2⟩ := hhit2 e hlookF
    rw [hee, hfl2] at h2
    exact ⟨e, r2, al2, hres, hlookF, hstr, hhash, h2, hrc2⟩

theorem C4_growth_preserves_membership_witness :
    ∃ e r2 al2,
      (Repository.internList f0 Repository.new al0 ["a", "b"]).2.2.getD 0
        (.error .oom) = .ok e ∧
      Repository.lookup f0
        (Repository.internList f0 Repository.new al0 ["a", "b"]).1
        ((["a", "b"] : List String).getD 0 "") = some e ∧
      e.str = (["a", "b"] : List String).getD 0 "" ∧
      e.hash = Repository.get_hash f0 ((["a", "b"] : List String).getD 0 "") ∧
      Repository.get_or_insert f0
        (Repository.internList f0 Repository.new al0 ["a", "b"]).1
        (Repository.internList f0 Repository.new al0 ["a", "b"]).2.1
        ((["a", "b"] : List String).getD 0 "") =
        ⟨.ok e, r2, al2, false⟩ ∧
      r2.recCount =
        (Repository.internList f0 Repository.new al0 ["a", "b"]).1.recCount :=
  (C4_growth_preserves_membership f0 ["a", "b"] al0 ⟨by decide, by decide⟩
    (fun _ => rfl) (by decide)).2 0 (by decide)

/-- C6 (amended).  A failing intern on a well-formed store reports
out-of-memory, leaves every arena chain exactly as it was, changes no
lookup and no record count, and keeps the store well-formed; but — against
the claim's "fails before any state is mutated" — the routed shard's index
may already have grown, which is an observable state change (see the
counterexample). -/
theorem C6_failing_intern (f : String → Nat) (r : Repository) (al : AllocSt)
    (s : String) (hwf : r.WFr) (hcnt : r.CountOk) (hal : al.WF)
    (hlen : s.length < 2 ^ 31)
    {err : Err} {r' : Repository} {al' : AllocSt} {fl : Bool}
    (h : Repository.get_or_insert f r al s = ⟨.error err, r', al', fl⟩) :
    (err = .oom ∨ err = .tooLarge) ∧
    (∀ i, (r'.buckets i).arena = (r.buckets i).arena) ∧
    (∀ t, Repository.lookup f r' t = Repository.lookup f r t) ∧
    r'.recCount = r.recCount ∧ r'.WFr ∧ r'.CountOk := by
  obtain ⟨hoom, har, hlook, hrc, hwf', hcnt'⟩ :=
    intern_err_spec f r al s hwf hcnt hal hlen h
  exact ⟨Or.inl hoom, har, hlook, hrc, hwf', hcnt'⟩

theorem C6_failing_intern_witness :
    (Repository.get_or_insert f0 Repository.new alFail1 "a").st.recCount =
      Repository.new.recCount :=
  (C6_failing_intern f0 Repository.new alFail1 "a" wfr_new countOk_new
    ⟨by decide, by decide⟩ (by decide) rfl).2.2.2.1

/-- C6, counterexample to the claim as written: with a fresh store and an
allocator whose second allocation fails, interning "a" fails with "oom"
after the routed bucket's index has grown — the index capacity (mask) and
the store's allocated memory differ from their pre-call values, so the
fatal error does not leave the state unmutated. -/
theorem C6_failing_intern_cex :
    (Repository.get_or_insert f0 Repository.new alFail1 "a").res =
      .error .oom ∧
    ((Repository.get_or_insert f0 Repository.new alFail1 "a").st.buckets
      0).entries.mask = 1023 ∧
    (Repository.new.buckets 0).entries.mask = 0 ∧
    (Repository.get_or_insert f0 Repository.new alFail1 "a").st.allocated_memory
      = 8192 ∧
    Repository.new.allocated_memory = 0 := by
  refine ⟨rfl, rfl, rfl, ?_, rfl⟩
  decide

/-- C7 (amended).  Handle ordering (`Ord`/`PartialOrd`) and display are
defined in terms of the handle's content, so handles with equal content —
from the same store or from two different stores — compare `.eq` under
`cmp` and display identically; but the derived handle *equality* is
pointer identity with no content fallback: it is content-blind, and equal
content interned in two different stores compares unequal under `==` (see
the counterexample). -/
theorem C7_handle_comparison (a b : ScopedSto) :
    ScopedSto.eqModel a b = a.entry.ptrEq b.entry ∧
    (a.as_str = b.as_str →
      ScopedSto.cmpModel a b = .eq ∧ a.displayModel = b.displayModel) ∧
    (ScopedSto.cmpModel a b = .eq ↔ a.as_str = b.as_str) := by
  have hiff : ScopedSto.cmpModel a b = .eq ↔ a.as_str = b.as_str := by
    constructor
    · intro h
      unfold ScopedSto.cmpModel at h
      by_cases hlt : a.as_str < b.as_str
      · rw [if_pos hlt] at h
        exact absurd h (by simp)
      · rw [if_neg hlt] at h
        by_cases heq : a.as_str = b.as_str
        · exact heq
        · rw [if_neg heq] at h
          exact absurd h (by simp)
    · intro h
      unfold ScopedSto.cmpModel
      rw [if_neg (by rw [h]; exact lt_irrefl _), if_pos h]
  refine ⟨rfl, ?_, hiff⟩
  intro h
  exact ⟨hiff.mpr h, h⟩

theorem C7_handle_comparison_witness :
    ScopedSto.cmpModel ⟨⟨2 ^ 32, 0, "a"⟩⟩ ⟨⟨2 ^ 33, 0, "a"⟩⟩ = .eq ∧
    ScopedSto.displayModel ⟨⟨2 ^ 32, 0, "a"⟩⟩ =
      ScopedSto.displayModel ⟨⟨2 ^ 33, 0, "a"⟩⟩ :=
  (C7_handle_comparison ⟨⟨2 ^ 32, 0, "a"⟩⟩ ⟨⟨2 ^ 33, 0, "a"⟩⟩).2.1 rfl

/-- C7, counterexample to the claim as written: interning "a" into two
distinct fresh stores (their arenas placed at different addresses) yields
two handles with identical content whose derived equality — pointer
identity, with no cross-store content fallback — is `false`, while the
content-based comparison sees them as equal. -/
theorem C7_handle_comparison_cex :
    ∃ a b : ScopedSto,
      (ScopedSto.intern_in f0 "a" Repository.new al0).1 = .ok a ∧
      (ScopedSto.intern_in f0 "a" Repository.new
        { next := 2 ^ 33, failAt := fun _ => false, count := 0 }).1 = .ok b ∧
      a.as_str = b.as_str ∧
      ScopedSto.eqModel a b = false ∧
      ScopedSto.cmpModel a b = .eq := by
  refine ⟨⟨⟨4294983632, 0, "a"⟩⟩, ⟨⟨8589950928, 0, "a"⟩⟩, rfl, rfl, rfl, ?_, ?_⟩
  · decide
  · unfold ScopedSto.cmpModel ScopedSto.as_str Entry.as_str
    simp

/-- Chain shape of the oversized slow path: the dedicated chunk holds the
new record; a still-usable displaced head remains the head with the
dedicated chunk behind it, otherwise the dedicated chunk becomes the
head. -/
theorem slow_path_chain_shape {a : Arena} {al : AllocSt} (hal : al.WF)
    (hnf : al.NoFail) (hash : Nat) {s : String} (hlen : s.length < 2 ^ 31)
    (hbig : Chunk.is_exceed_default_capacity (s.length + 16) = true)
    {c : Chunk} {rest : List Chunk} (hchain : a.chain = c :: rest) :
    ∃ e nc' al',
      nc'.recs = [e] ∧ e.str = s ∧ e.hash = hash ∧
      CHUNK_DEFAULT_CAPACITY - SIZE_OF_CHUNK < nc'.size ∧
      (c.is_still_usable = true →
        a.try_alloc_str_slow_path al hash s = (.ok e, ⟨c :: nc' :: rest⟩, al')) ∧
      (c.is_still_usable = false →
        a.try_alloc_str_slow_path al hash s = (.ok e, ⟨nc' :: c :: rest⟩, al')) := by
  rcases try_new_cases al (z := s.length + 16 + SIZE_OF_CHUNK)
      (by unfold SIZE_OF_CHUNK USIZE; omega) with
    ⟨nc, al2, hnew, hlow, hsz2, hcur, hrecs, _, _, _, _⟩ |
    ⟨al2, hnew, _, _, hfail⟩
  · obtain ⟨e1, nc', hok, hh, hs, hlow2, hsz3, hrecs2, hcur2⟩ :=
      try_alloc_str_fits_ex (c := nc) (by rw [hlow]; exact hal.1) hash (s := s)
        (by
          rw [hcur, hlow]
          unfold SIZE_OF_CHUNK at hsz2
          omega)
    refine ⟨e1, nc', al2, ?_, hs, hh, ?_, ?_, ?_⟩
    · rw [hrecs2, hrecs]
    · rw [hsz3]
      have hb : s.length + 16 > CHUNK_DEFAULT_CAPACITY - SIZE_OF_CHUNK := by
        unfold Chunk.is_exceed_default_capacity at hbig
        simpa using hbig
      unfold SIZE_OF_CHUNK at hsz2
      omega
    · intro hu
      unfold Arena.try_alloc_str_slow_path
      simp only [needed_bytes_eq hlen]
      rw [if_pos hbig,
        if_pos (show s.length + 16 + SIZE_OF_CHUNK < USIZE by
          unfold SIZE_OF_CHUNK USIZE; omega)]
      simp only [hnew, hchain]
      rw [if_pos hu]
      simp only [hok]
    · intro hu
      unfold Arena.try_alloc_str_slow_path
      simp only [needed_bytes_eq hlen]
      rw [if_pos hbig,
        if_pos (show s.length + 16 + SIZE_OF_CHUNK < USIZE by
          unfold SIZE_OF_CHUNK USIZE; omega)]
      simp only [hnew, hchain]
      rw [if_neg (by simp [hu])]
      simp only [hok]
  · exact absurd hfail (by simp [hnf al.count])

/-- C8 (amended).  Oversized-chunk chaining policy, as the code implements
it: an allocation whose needed bytes exceed the default chunk's usable
budget gets a dedicated chunk (larger than the default's budget) holding
the new record; if the displaced head chunk still has at least the
usability threshold of free space it *remains the head* — the dedicated
chunk is chained behind it as the head's predecessor, so future small
allocations keep using the old head's remaining budget — and only
otherwise does the new chunk become the head, with the old one linked
behind it for later deallocation.  (The claim states the reverse linkage:
see the counterexample.) -/
theorem C8_oversized_chaining {a : Arena} {al : AllocSt} (hal : al.WF)
    (hnf : al.NoFail) (hash : Nat) {s : String} (hlen : s.length < 2 ^ 31)
    (hbig : Chunk.is_exceed_default_capacity (s.length + 16) = true)
    {c : Chunk} {rest : List Chunk} (hchain : a.chain = c :: rest) :
    ∃ e nc' al',
      nc'.recs = [e] ∧ e.str = s ∧ e.hash = hash ∧
      CHUNK_DEFAULT_CAPACITY - SIZE_OF_CHUNK < nc'.size ∧
      (c.is_still_usable = true →
        a.try_alloc_str_slow_path al hash s = (.ok e, ⟨c :: nc' :: rest⟩, al')) ∧
      (c.is_still_usable = false →
        a.try_alloc_str_slow_path al hash s = (.ok e, ⟨nc' :: c :: rest⟩, al')) :=
  slow_path_chain_shape hal hnf hash hlen hbig hchain





theorem bigStr_length : bigStr.length = 8145 := by
  show (List.replicate 8145 'b').length = 8145
  rw [List.length_replicate]

theorem C8_oversized_chaining_witness :
    ∃ e nc' al',
      nc'.recs = [e] ∧ e.str = bigStr ∧ e.hash = 0 ∧
      CHUNK_DEFAULT_CAPACITY - SIZE_OF_CHUNK < nc'.size ∧
      ((⟨2 ^ 32, 8192, 2 ^ 32 + 8136, [⟨2 ^ 32 + 8144, 0, "a"⟩]⟩ :
          Chunk).is_still_usable = true →
        arenaRun1.2.1.try_alloc_str_slow_path arenaRun1.2.2 0 bigStr =
          (.ok e, ⟨(⟨2 ^ 32, 8192, 2 ^ 32 + 8136, [⟨2 ^ 32 + 8144, 0, "a"⟩]⟩ :
            Chunk) :: nc' :: []⟩, al')) ∧
      ((⟨2 ^ 32, 8192, 2 ^ 32 + 8136, [⟨2 ^ 32 + 8144, 0, "a"⟩]⟩ :
          Chunk).is_still_usable = false →
        arenaRun1.2.1.try_alloc_str_slow_path arenaRun1.2.2 0 bigStr =
          (.ok e, ⟨nc' :: (⟨2 ^ 32, 8192, 2 ^ 32 + 8136,
            [⟨2 ^ 32 + 8144, 0, "a"⟩]⟩ : Chunk) :: []⟩, al')) :=
  C8_oversized_chaining
    (show arenaRun1.2.2.WF from ⟨by decide, by decide⟩)
    (fun _ => rfl) 0
    (show bigStr.length < 2 ^ 31 by rw [bigStr_length]; decide)
    (show Chunk.is_exceed_default_capacity (bigStr.length + 16) = true by
      rw [bigStr_length]; decide)
    (show arenaRun1.2.1.chain =
      (⟨2 ^ 32, 8192, 2 ^ 32 + 8136, [⟨2 ^ 32 + 8144, 0, "a"⟩]⟩ : Chunk) :: []
      from by decide)

/-- C8, counterexample to the claim as written: after one small record the
default head chunk is still usable; an oversized record then creates a
dedicated chunk — but the *old* chunk remains the head of the chain, its
small record intact, while the new record's dedicated chunk is chained
behind it: the reverse of the claim's "kept reachable as the new chunk's
predecessor rather than discarded as head". -/
theorem C8_oversized_chaining_cex :
    (⟨2 ^ 32, 8192, 2 ^ 32 + 8136, [⟨2 ^ 32 + 8144, 0, "a"⟩]⟩ :
        Chunk).is_still_usable = true ∧
    Chunk.is_exceed_default_capacity (bigStr.length + 16) = true ∧
    ∃ e nc' al',
      arenaRun2 = (.ok e, ⟨(⟨2 ^ 32, 8192, 2 ^ 32 + 8136,
          [⟨2 ^ 32 + 8144, 0, "a"⟩]⟩ : Chunk) :: nc' :: []⟩, al') ∧
      nc'.recs = [e] ∧ e.str = bigStr ∧
      CHUNK_DEFAULT_CAPACITY - SIZE_OF_CHUNK < nc'.size := by
  refine ⟨by decide, by rw [bigStr_length]; decide, ?_⟩
  obtain ⟨e, nc', al', hrecs, hs, hh, hsz, hus, -⟩ :=
    slow_path_chain_shape
      (show arenaRun1.2.2.WF from ⟨by decide, by decide⟩)
      (fun _ => rfl) 0
      (show bigStr.length < 2 ^ 31 by rw [bigStr_length]; decide)
      (show Chunk.is_exceed_default_capacity (bigStr.length + 16) = true by
        rw [bigStr_length]; decide)
      (show arenaRun1.2.1.chain =
        (⟨2 ^ 32, 8192, 2 ^ 32 + 8136, [⟨2 ^ 32 + 8144, 0, "a"⟩]⟩ : Chunk) :: []
        from by decide)
  have hslow := hus (by decide)
  refine ⟨e, nc', al', ?_, hrecs, hs, hsz⟩
  show Arena.alloc_str arenaRun1.2.1 arenaRun1.2.2 0 bigStr = _
  have hns : (⟨2 ^ 32, 8192, 2 ^ 32 + 8136, [⟨2 ^ 32 + 8144, 0, "a"⟩]⟩ :
      Chunk).try_alloc_str 0 bigStr = .noSpace := by
    unfold Chunk.try_alloc_str
    rw [bigStr_length]
    decide
  have hchain1 : arenaRun1.2.1.chain =
      (⟨2 ^ 32, 8192, 2 ^ 32 + 8136, [⟨2 ^ 32 + 8144, 0, "a"⟩]⟩ : Chunk) :: []
      := by decide
  unfold Arena.alloc_str
  simp only [hchain1, hns]
  exact hslow

/-- C9.  Boundary sizing: a string whose encoded record size (length field
+ hash field + bytes) is exactly the default chunk's usable budget stays
on the default-chunk path, and one whose encoded size is one byte larger
takes the oversized-chunk path; with a working allocator both intern
successfully — the post-chunk-creation allocation never fails despite the
alignment rounding — and both round-trip their exact bytes through
`as_str`. -/
theorem C9_boundary_sizing (f : String → Nat) (r : Repository) (al : AllocSt)
    (s : String) (hwf : r.WFr) (hcnt : r.CountOk) (hal : al.WF)
    (hnf : al.NoFail)
    (hlen : s.length + 16 = CHUNK_DEFAULT_CAPACITY - SIZE_OF_CHUNK ∨
      s.length + 16 = CHUNK_DEFAULT_CAPACITY - SIZE_OF_CHUNK + 1) :
    (s.length + 16 = CHUNK_DEFAULT_CAPACITY - SIZE_OF_CHUNK →
      Chunk.is_exceed_default_capacity (s.length + 16) = false) ∧
    (s.length + 16 = CHUNK_DEFAULT_CAPACITY - SIZE_OF_CHUNK + 1 →
      Chunk.is_exceed_default_capacity (s.length + 16) = true) ∧
    ∃ e r' al' fl,
      Repository.get_or_insert f r al s = ⟨.ok e, r', al', fl⟩ ∧
      e.as_str = s ∧ e.hash = Repository.get_hash f s ∧
      Repository.lookup f r' s = some e := by
  have h8160 : CHUNK_DEFAULT_CAPACITY - SIZE_OF_CHUNK = 8160 := by decide
  have hl31 : s.length < 2 ^ 31 := by
    rcases hlen with h | h <;> omega
  refine ⟨?_, ?_, ?_⟩
  · intro h
    rw [h, h8160]
    decide
  · intro h
    rw [h, h8160]
    decide
  · obtain ⟨e, r', al', fl, heq, hs, hh, _, _, _, _, hlook, _, _, _⟩ :=
      intern_spec f r al s hwf hcnt hal hnf hl31
    exact ⟨e, r', al', fl, heq, hs, hh, hlook⟩


theorem bdStr0_length : bdStr0.length = 8144 := by
  show (List.replicate 8144 'c').length = 8144
  rw [List.length_replicate]

theorem C9_boundary_sizing_witness :
    (∃ e r' al' fl,
      Repository.get_or_insert f0 Repository.new al0 bdStr0 =
        ⟨.ok e, r', al', fl⟩ ∧
      e.as_str = bdStr0 ∧ e.hash = Repository.get_hash f0 bdStr0 ∧
      Repository.lookup f0 r' bdStr0 = some e) ∧
    (∃ e r' al' fl,
      Repository.get_or_insert f0 Repository.new al0 bigStr =
        ⟨.ok e, r', al', fl⟩ ∧
      e.as_str = bigStr ∧ e.hash = Repository.get_hash f0 bigStr ∧
      Repository.lookup f0 r' bigStr = some e) :=
  ⟨(C9_boundary_sizing f0 Repository.new al0 bdStr0 wfr_new countOk_new
      ⟨by decide, by decide⟩ (fun _ => rfl)
      (Or.inl (by rw [bdStr0_length]; decide))).2.2,
   (C9_boundary_sizing f0 Repository.new al0 bigStr wfr_new countOk_new
      ⟨by decide, by decide⟩ (fun _ => rfl)
      (Or.inr (by rw [bigStr_length]; decide))).2.2⟩
